import Mathlib

/-!
Verification of the `simple-sketch` 2D rasterizer core.

Shallow embedding of the repository's Rust sources:
* `src/color.rs`      — packed 32-bit ARGB color value,
* `src/point.rs`      — 2D vector value type,
* `src/pixelbuffer.rs`— framebuffer with set/blend/plot and Wu line drawing,
* `src/canvas.rs`     — fill / stroke shape pipeline,
* `src/shape.rs`      — Ellipse / Rectangle / Polygon geometry,
* `src/geom/line.rs`  — line-segment queries used by `Polygon`.

Modelling conventions:
* Rust `f32` is modelled as `ℚ` with exact arithmetic.  Every concrete input
  appearing in a theorem below uses only values (small dyadic rationals and
  small integers) on which the `f32` computations of the source are exact.
* `f32::sqrt` is modelled by `ratSqrt`, which is exact on rationals that are
  squares and otherwise an under-approximation; all the theorems below either
  evaluate it at perfect squares (where the correctly-rounded IEEE result is
  the same value) or use only comparisons on which any correctly-rounded
  square root agrees.
* The `u8` saturating-truncating cast `as u8` of Rust is `toU8`; the
  truncating `f32 as i32` cast is `truncI`.
* Machine integers are `ℕ` / `ℤ`; the packed `u32` pixel words are `ℕ`
  (all operations below keep them `< 2^32`).
-/

namespace SimpleSketch

/- The Batteries rational-number operations are `@[irreducible]`; the
concrete pixel computations below are settled by `decide`, which needs them
to unfold.  (Kernel-checked proofs are unaffected by reducibility
attributes.) -/
attribute [local semireducible] Rat.add Rat.sub Rat.mul Rat.inv Rat.ofScientific

/-- Rust's saturating `f32 as u8` cast: truncation toward zero, clamped into
`[0, 255]` (all values cast in this codebase are nonnegative). -/
def toU8 (q : ℚ) : ℕ := if q ≤ 0 then 0 else min 255 ⌊q⌋.toNat

/-- Rust's truncating `f32 as i32` cast (round toward zero; every value cast
in this code base is far inside the `i32` range, so saturation is omitted). -/
def truncI (q : ℚ) : ℤ := if 0 ≤ q then ⌊q⌋ else ⌈q⌉

/-- Rust's `f32::fract`: `self - self.trunc()` (truncation toward zero). -/
def fractQ (q : ℚ) : ℚ := q - truncI q

/-- Rust's `f32::round`: round half away from zero. -/
def roundQ (q : ℚ) : ℚ := ((if 0 ≤ q then ⌊q + 1/2⌋ else ⌈q - 1/2⌉ : ℤ) : ℚ)

/-- Structurally recursive integer square root (so that the kernel can
evaluate it): starting from `acc`, walk up while the next square still fits
under `n`.  `fuel` bounds the walk; `isqrtN` supplies `n` of it, which is
always enough. -/
def isqrtGo (n : ℕ) : ℕ → ℕ → ℕ
  | 0, acc => acc
  | fuel + 1, acc =>
    if (acc + 1) * (acc + 1) ≤ n then isqrtGo n fuel (acc + 1) else acc

/-- Kernel-computable integer square root; proved equal to `Nat.sqrt`. -/
def isqrtN (n : ℕ) : ℕ := isqrtGo n n 0

/-- Model of `f32::sqrt` on the rational embedding: exact on perfect rational
squares (`ratSqrt (x * x) = |x|`, matching the correctly rounded IEEE result
there), nonnegative, and zero exactly on zero for nonnegative inputs — the
only facts about `f32::sqrt` the theorems below use. -/
def ratSqrt (q : ℚ) : ℚ :=
  if q ≤ 0 then 0 else (isqrtN q.num.toNat : ℚ) / (isqrtN q.den : ℚ)

/-! ## Color (`src/color.rs`)

`pub struct Color(pub u32)` with `new` packing `(a << 24) | (r << 16) |
(g << 8) | b` and shift/mask accessors. -/

/-- Rust `Color(pub u32)`: the packed 32-bit value. -/
structure Color where
  val : ℕ
deriving DecidableEq

/-- Rust `Color::new(r, g, b, a)`: `((a as u32) << 24) | ((r as u32) << 16) |
((g as u32) << 8) | (b as u32)`. -/
def Color.new (r g b a : ℕ) : Color :=
  ⟨(((a <<< 24) ||| (r <<< 16)) ||| (g <<< 8)) ||| b⟩

/-- Rust `Color::r`: `((self.0 >> 16) & 0xFF) as u8`. -/
def Color.r (c : Color) : ℕ := (c.val >>> 16) &&& 0xFF

/-- Rust `Color::g`: `((self.0 >> 8) & 0xFF) as u8`. -/
def Color.g (c : Color) : ℕ := (c.val >>> 8) &&& 0xFF

/-- Rust `Color::b`: `(self.0 & 0xFF) as u8`. -/
def Color.b (c : Color) : ℕ := c.val &&& 0xFF

/-- Rust `Color::a`: `((self.0 >> 24) & 0xFF) as u8`. -/
def Color.a (c : Color) : ℕ := (c.val >>> 24) &&& 0xFF

/-- Rust `Color::with_alpha(alpha)`: `Color::new(self.r(), self.g(), self.b(), alpha)`. -/
def Color.withAlpha (c : Color) (alpha : ℕ) : Color :=
  Color.new c.r c.g c.b alpha

structure Point where
  x : ℚ
  y : ℚ
deriving DecidableEq

/-- Rust `Point::length`: `(self.x * self.x + self.y * self.y).sqrt()`. -/
def Point.length (p : Point) : ℚ := ratSqrt (p.x * p.x + p.y * p.y)

/-- Rust `impl Sub for Point`. -/
def Point.sub (p q : Point) : Point := ⟨p.x - q.x, p.y - q.y⟩

/-- Rust `Point::distance(other)`: `(*self - *other).length()`. -/
def Point.distance (p q : Point) : ℚ := (p.sub q).length

/-- Rust `Point::dot(other)`: `self.x * other.x + self.y * other.y`. -/
def Point.dot (p q : Point) : ℚ := p.x * q.x + p.y * q.y

/-- Rust `impl Add for Point`. -/
def Point.add (p q : Point) : Point := ⟨p.x + q.x, p.y + q.y⟩

/-- Rust `impl Mul<f32> for Point`. -/
def Point.mul (p : Point) (s : ℚ) : Point := ⟨p.x * s, p.y * s⟩

/-! ## PixelBuffer (`src/pixelbuffer.rs`) -/

/-- Rust `PixelBuffer { width, height, buffer: Vec<u32> }`; the `u32` words are
naturals (kept `< 2^32` by every operation of the source). -/
structure PixelBuffer where
  width : ℕ
  height : ℕ
  buffer : List ℕ

/-- Rust `PixelBuffer::new`: `vec![0; width * height]`. -/
def PixelBuffer.new (width height : ℕ) : PixelBuffer :=
  ⟨width, height, List.replicate (width * height) 0⟩

/-- The in-canvas bounds test `x >= 0 && x < self.width as i32 && y >= 0 &&
y < self.height as i32` shared by `set_pixel` and `blend_pixel`. -/
def PixelBuffer.inBounds (pb : PixelBuffer) (x y : ℤ) : Prop :=
  0 ≤ x ∧ x < (pb.width : ℤ) ∧ 0 ≤ y ∧ y < (pb.height : ℤ)

instance (pb : PixelBuffer) (x y : ℤ) : Decidable (pb.inBounds x y) := by
  unfold PixelBuffer.inBounds; infer_instance

/-- Rust `let index = y as usize * self.width + x as usize`. -/
def PixelBuffer.index (pb : PixelBuffer) (x y : ℤ) : ℕ :=
  y.toNat * pb.width + x.toNat

/-- Rust `PixelBuffer::set_pixel`. -/
def PixelBuffer.set_pixel (pb : PixelBuffer) (x y : ℤ) (c : Color) : PixelBuffer :=
  if pb.inBounds x y then
    { pb with buffer := pb.buffer.set (pb.index x y) c.val }
  else pb

/-- The body shared verbatim by `PixelBuffer::blend_pixel`
(src/pixelbuffer.rs:42-58) and `Canvas::blend_pixel` (src/canvas.rs:139-155):
alpha-over compositing of `color` onto the background word `background`, with
each channel truncated by `as u8` and the stored alpha forced to `255`. -/
def blendWord (background : ℕ) (color : Color) : ℕ :=
  let bgColor : Color := ⟨background⟩
  let alpha : ℚ := (color.a : ℚ) / 255
  let invAlpha : ℚ := 1 - alpha
  let newR := toU8 (invAlpha * bgColor.r + alpha * color.r)
  let newG := toU8 (invAlpha * bgColor.g + alpha * color.g)
  let newB := toU8 (invAlpha * bgColor.b + alpha * color.b)
  (Color.new newR newG newB 255).val

/-- Rust `PixelBuffer::blend_pixel`.  The source indexes `self.buffer[index]`;
this is in range whenever the bounds check passes and the buffer has its
constructed length `width * height` (proved below for claim C5), so the
embedding reads via `getD`. -/
def PixelBuffer.blend_pixel (pb : PixelBuffer) (x y : ℤ) (c : Color) : PixelBuffer :=
  if pb.inBounds x y then
    let index := pb.index x y
    let background := pb.buffer.getD index 0
    { pb with buffer := pb.buffer.set index (blendWord background c) }
  else pb

/-- Rust `PixelBuffer::plot(x, y, color, alpha)`: blend `color` with its alpha
byte scaled by `alpha` (byte-truncated product). -/
def PixelBuffer.plot (pb : PixelBuffer) (x y : ℤ) (c : Color) (alpha : ℚ) : PixelBuffer :=
  pb.blend_pixel x y (c.withAlpha (toU8 ((c.a : ℚ) * alpha)))

/-- Observer: the stored word at `(x, y)`, `none` out of bounds.  (The source
exposes the buffer via `get_buffer`; this reads one word of it.) -/
def PixelBuffer.getPixel (pb : PixelBuffer) (x y : ℤ) : Option ℕ :=
  if pb.inBounds x y then some (pb.buffer.getD (pb.index x y) 0) else none

/-- Rust `Rectangle { top_left: Point, width: f32, height: f32 }`. -/
structure Rectangle where
  top_left : Point
  width : ℚ
  height : ℚ

/-- Rust `Rectangle::contains`: inclusive axis-aligned test
`point.x >= self.top_left.x && point.x <= self.top_left.x + self.width &&
point.y >= self.top_left.y && point.y <= self.top_left.y + self.height`. -/
def Rectangle.contains (rect : Rectangle) (p : Point) : Prop :=
  rect.top_left.x ≤ p.x ∧ p.x ≤ rect.top_left.x + rect.width ∧
  rect.top_left.y ≤ p.y ∧ p.y ≤ rect.top_left.y + rect.height

instance (rect : Rectangle) (p : Point) : Decidable (rect.contains p) := by
  unfold Rectangle.contains; infer_instance

/-- Rust `Rectangle::bounding_box`: `(self.top_left, top_left + (width, height))`. -/
def Rectangle.bounding_box (rect : Rectangle) : Point × Point :=
  (rect.top_left,
   ⟨rect.top_left.x + rect.width, rect.top_left.y + rect.height⟩)

/-- Rust `Rectangle::distance`: Euclidean distance from the point to the closest
point of the rectangle, computed by clamping the offset from `top_left` into
`[0, width] × [0, height]` and adding it back to `top_left`. -/
def Rectangle.distance (rect : Rectangle) (p : Point) : ℚ :=
  let dx := min (max (p.x - rect.top_left.x) 0) rect.width
  let dy := min (max (p.y - rect.top_left.y) 0) rect.height
  let closest : Point := ⟨rect.top_left.x + dx, rect.top_left.y + dy⟩
  p.distance closest

structure ShapeI where
  contains : ℚ → ℚ → Bool
  bounding_box : ℚ × ℚ × ℚ × ℚ
  distance : ℚ → ℚ → ℚ

/-- Rust `Canvas { width, height, buffer, fill_color, stroke_color, stroke_weight }`
(the `fill`/`stroke` booleans of the struct are never read by the drawing
code, which tests the `Option` colors instead, so they are omitted). -/
structure Canvas where
  width : ℕ
  height : ℕ
  buffer : List ℕ
  fill_color : Option Color
  stroke_color : Option Color
  stroke_weight : ℚ

def Canvas.inBounds (cv : Canvas) (x y : ℤ) : Prop :=
  0 ≤ x ∧ x < (cv.width : ℤ) ∧ 0 ≤ y ∧ y < (cv.height : ℤ)

instance (cv : Canvas) (x y : ℤ) : Decidable (cv.inBounds x y) := by
  unfold Canvas.inBounds; infer_instance

def Canvas.index (cv : Canvas) (x y : ℤ) : ℕ := y.toNat * cv.width + x.toNat

/-- Rust `Canvas::blend_pixel` (the verbatim duplicate of
`PixelBuffer::blend_pixel`). -/
def Canvas.blend_pixel (cv : Canvas) (x y : ℤ) (c : Color) : Canvas :=
  if cv.inBounds x y then
    let index := cv.index x y
    let bg := cv.buffer.getD index 0
    { cv with buffer := cv.buffer.set index (blendWord bg c) }
  else cv

/-- Observer: the stored word at `(x, y)` of a canvas, `none` out of
bounds. -/
def Canvas.getPixel (cv : Canvas) (x y : ℤ) : Option ℕ :=
  if cv.inBounds x y then some (cv.buffer.getD (cv.index x y) 0) else none

/-- The 16 fixed sub-pixel sample offsets of `Canvas::calculate_coverage`
(src/canvas.rs:115-120). -/
def sampleOffsets : List (ℚ × ℚ) :=
  [(0.125, 0.125), (0.375, 0.125), (0.625, 0.125), (0.875, 0.125),
   (0.125, 0.375), (0.375, 0.375), (0.625, 0.375), (0.875, 0.375),
   (0.125, 0.625), (0.375, 0.625), (0.625, 0.625), (0.875, 0.625),
   (0.125, 0.875), (0.375, 0.875), (0.625, 0.875), (0.875, 0.875)]

/-- Rust `Canvas::calculate_coverage`: the count of the 16 sample offsets
satisfying `shape.contains`, divided by the number of samples.  (`&self` is
unused by the source body.) -/
def Canvas.calculate_coverage (shape : ShapeI) (x y : ℚ) : ℚ :=
  let count := (sampleOffsets.filter fun s => shape.contains (x + s.1) (y + s.2)).length
  (count : ℚ) / (sampleOffsets.length : ℚ)

/-- Rust `Canvas::calculate_stroke_coverage`. -/
def Canvas.calculate_stroke_coverage (cv : Canvas) (distance : ℚ) : ℚ :=
  let half_stroke := cv.stroke_weight / 2
  if half_stroke < |distance| then 0
  else (half_stroke - |distance|) / cv.stroke_weight

/-- The inclusive integer range `a..=b` of a Rust `for` loop. -/
def intRangeIncl (a b : ℤ) : List ℤ :=
  (List.range (b + 1 - a).toNat).map fun i => a + i

/-- The row-major pixel visit order `for px in x1..=x2 { for py in y1..=y2 }`
of the fill and stroke passes. -/
def pixelGrid (x1 x2 y1 y2 : ℤ) : List (ℤ × ℤ) :=
  (intRangeIncl x1 x2).flatMap fun px => (intRangeIncl y1 y2).map fun py => (px, py)

/-- One iteration of the fill loop body (src/canvas.rs:87-93): blend only
when `coverage > 1.0`. -/
def Canvas.fillPixel (cv : Canvas) (shape : ShapeI) (color : Color)
    (px py : ℤ) : Canvas :=
  let coverage := Canvas.calculate_coverage shape (px : ℚ) (py : ℚ)
  if 1 < coverage then
    cv.blend_pixel px py (color.withAlpha (toU8 ((color.a : ℚ) * coverage)))
  else cv

/-- Rust `Canvas::fill_shape_aa`: scan the outward-rounded bounding box. -/
def Canvas.fill_shape_aa (cv : Canvas) (shape : ShapeI) (color : Color) : Canvas :=
  match shape.bounding_box with
  | (x, y, w, h) =>
    (pixelGrid ⌊x⌋ ⌈x + w⌉ ⌊y⌋ ⌈y + h⌉).foldl
      (fun acc pq => Canvas.fillPixel acc shape color pq.1 pq.2) cv

/-- One iteration of the stroke loop body (src/canvas.rs:103-110): blend
when `coverage > 0.0`. -/
def Canvas.strokePixel (cv : Canvas) (shape : ShapeI) (color : Color)
    (px py : ℤ) : Canvas :=
  let distance := shape.distance (px : ℚ) (py : ℚ)
  let coverage := cv.calculate_stroke_coverage distance
  if 0 < coverage then
    cv.blend_pixel px py (color.withAlpha (toU8 ((color.a : ℚ) * coverage)))
  else cv

/-- Rust `Canvas::stroke_shape_aa`: scan the bounding box expanded on every side
by `self.stroke_weight as i32` (note: the full weight, truncated to an
integer — not `stroke_weight / 2`). -/
def Canvas.stroke_shape_aa (cv : Canvas) (shape : ShapeI) (color : Color) : Canvas :=
  match shape.bounding_box with
  | (x, y, w, h) =>
    (pixelGrid (⌊x⌋ - truncI cv.stroke_weight) (⌈x + w⌉ + truncI cv.stroke_weight)
        (⌊y⌋ - truncI cv.stroke_weight) (⌈y + h⌉ + truncI cv.stroke_weight)).foldl
      (fun acc pq => Canvas.strokePixel acc shape color pq.1 pq.2) cv

/-- Rust `Canvas::draw_shape_aa`: fill pass (if a fill color is set) then stroke
pass (if a stroke color is set). -/
def Canvas.draw_shape_aa (cv : Canvas) (shape : ShapeI) : Canvas :=
  let cv1 := match cv.fill_color with
    | some fill_color => cv.fill_shape_aa shape fill_color
    | none => cv
  match cv1.stroke_color with
  | some stroke_color => cv1.stroke_shape_aa shape stroke_color
  | none => cv1

/-- The `Shape` capabilities of a `Rectangle` (bodies from
`impl Shape for Rectangle` in src/shape.rs) in the coordinate-wise form
consumed by `Canvas`. -/
def Rectangle.shape (rect : Rectangle) : ShapeI where
  contains x y := decide (rect.contains ⟨x, y⟩)
  bounding_box := (rect.top_left.x, rect.top_left.y, rect.width, rect.height)
  distance x y := rect.distance ⟨x, y⟩

/-- Rust `Canvas::rectangle(x, y, w, h)`: build the `Rectangle` shape and run the
two-pass pipeline. -/
def Canvas.rectangle (cv : Canvas) (x y w h : ℚ) : Canvas :=
  cv.draw_shape_aa (Rectangle.shape ⟨⟨x, y⟩, w, h⟩)

/-- The concrete canvas of claims C1/C2: 12×12, all pixels zero, fill color
fully opaque red, stroke disabled, default stroke weight 1. -/
def canvasC1 : Canvas :=
  ⟨12, 12, List.replicate 144 0, some (Color.new 255 0 0 255), none, 1⟩

/-- The fill coverage exactly as claim C2 (and spec §4.5) describes it:
4 sub-pixel offsets `(0.25,0.25), (0.75,0.25), (0.25,0.75), (0.75,0.75)`,
count divided by 4.  Stated only to be compared against the source's
`Canvas::calculate_coverage`. -/
def specCoverage4 (shape : ShapeI) (x y : ℚ) : ℚ :=
  let samples : List (ℚ × ℚ) := [(0.25, 0.25), (0.75, 0.25), (0.25, 0.75), (0.75, 0.75)]
  ((samples.filter fun s => shape.contains (x + s.1) (y + s.2)).length : ℚ) / 4

/-- The concrete canvas of claim C3: 10×10, all pixels zero, fill disabled,
opaque white stroke, stroke weight 1. -/
def canvasC3 : Canvas :=
  ⟨10, 10, List.replicate 100 0, none, some (Color.new 255 255 255 255), 1⟩

/-- Rust `Line { start: Point, end: Point }` (the Rust field `end` is a Lean
keyword, so it is called `stop` here). -/
structure Line where
  start : Point
  stop : Point

/-- Rust `Line::closest_point`: project onto the segment direction and clamp the
parameter to `[0, 1]`.  (For a zero-length segment the source divides `0/0`,
a NaN that falls through both comparisons; the `ℚ` model gives `t = 0`.
`Polygon::distance` below never evaluates that case in any theorem.) -/
def Line.closest_point (l : Line) (p : Point) : Point :=
  let line_vec := l.stop.sub l.start
  let point_vec := p.sub l.start
  let t := point_vec.dot line_vec / line_vec.dot line_vec
  if t ≤ 0 then l.start
  else if 1 ≤ t then l.stop
  else l.start.add (line_vec.mul t)

/-- Modelled from the spec: `Line::distance_to_point` is called by
`Polygon::distance` (src/shape.rs:131) but is not defined anywhere under
`src/`.  The spec (§2, §4.2) lists the line segment's "distance-to-point"
query built from the closest point on the segment, so it is modelled as the
Euclidean distance from the query point to `closest_point`. -/
def Line.distance_to_point (l : Line) (p : Point) : ℚ :=
  p.distance (l.closest_point p)

/-- Rust `Polygon { vertices: Vec<Point> }`. -/
structure Polygon where
  vertices : List Point

/-- One edge test of the even–odd ray cast in `Polygon::contains`:
`(vi.y > point.y) != (vj.y > point.y) && point.x < (vj.x - vi.x) *
(point.y - vi.y) / (vj.y - vi.y) + vi.x`.  The Rust `&&` short-circuits, so
the division only runs when `vi.y ≠ vj.y`; the `ℚ` model's `x / 0 = 0` is
therefore never observable. -/
def edgeFlip (p vi vj : Point) : Bool :=
  (decide (vi.y > p.y) != decide (vj.y > p.y)) &&
  decide (p.x < (vj.x - vi.x) * (p.y - vi.y) / (vj.y - vi.y) + vi.x)

/-- Rust `Polygon::contains` (ray casting).  The source starts with
`let mut j = self.vertices.len() - 1`: for an empty polygon this `usize`
subtraction underflows, which panics in a debug build (and in a release
build wraps, after which the loop body never runs and `false` is returned);
the panic is modelled as `none`.  For `n ≥ 1` vertices the `(i, j)` pairs
visited are exactly `vertices.zip (last :: vertices)`. -/
def Polygon.contains (poly : Polygon) (p : Point) : Option Bool :=
  match poly.vertices.getLast? with
  | none => none
  | some last =>
    some ((poly.vertices.zip (last :: poly.vertices)).foldl
      (fun inside vv => if edgeFlip p vv.1 vv.2 then !inside else inside) false)

/-- Rust `Polygon::bounding_box`: explicit degenerate `(0,0)-(0,0)` for the empty
polygon; otherwise the source folds min/max starting from
`±f32::INFINITY` over all vertices, which for a nonempty list equals the
fold started from the first vertex. -/
def Polygon.bounding_box (poly : Polygon) : Point × Point :=
  match poly.vertices with
  | [] => (⟨0, 0⟩, ⟨0, 0⟩)
  | v :: rest =>
    let r := rest.foldl
      (fun (acc : ℚ × ℚ × ℚ × ℚ) (u : Point) =>
        (min acc.1 u.x, min acc.2.1 u.y, max acc.2.2.1 u.x, max acc.2.2.2 u.y))
      (v.x, v.y, v.x, v.y)
    (⟨r.1, r.2.1⟩, ⟨r.2.2.1, r.2.2.2⟩)

/-- Rust `Polygon::distance`: `f32::INFINITY` (modelled as `none`) for fewer than
2 vertices; otherwise the minimum `distance_to_point` over the closed edge
loop (`prev` starts at the last vertex, so the edges are
`(last :: vertices).zip vertices`), negated when `contains` holds.  The
source's running minimum starts at `INFINITY`, which over the `n ≥ 2`
edges equals the fold started from the first edge distance. -/
def Polygon.distance (poly : Polygon) (p : Point) : Option ℚ :=
  if poly.vertices.length < 2 then none
  else
    match poly.vertices.getLast? with
    | none => none
    | some last =>
      match ((last :: poly.vertices).zip poly.vertices).map
          (fun pr => Line.distance_to_point ⟨pr.1, pr.2⟩ p) with
      | [] => none
      | d :: rest =>
        let m := rest.foldl min d
        some (if (poly.contains p).getD false then -m else m)

/-- The exclusive integer range `a..b` of the main Wu loop. -/
def intRangeExcl (a b : ℤ) : List ℤ :=
  (List.range (b - a).toNat).map fun i => a + i

/-- The main loop of `draw_line_aa`: per column, plot the two straddling
pixels with weights `1 − fract(intery)` / `fract(intery)` and step the
intercept by `gradient` (axes swapped when `steep`). -/
def wuLoop (steep : Bool) (c : Color) (gradient : ℚ) :
    List ℤ → ℚ → PixelBuffer → PixelBuffer
  | [], _, pb => pb
  | x :: xs, intery, pb =>
    let pb1 :=
      if steep then
        (pb.plot ⌊intery⌋ x c (1 - fractQ intery)).plot (⌊intery⌋ + 1) x c (fractQ intery)
      else
        (pb.plot x ⌊intery⌋ c (1 - fractQ intery)).plot x (⌊intery⌋ + 1) c (fractQ intery)
    wuLoop steep c gradient xs (intery + gradient) pb1

/-- Rust `PixelBuffer::draw_line_aa` (Wu's algorithm); `p0`/`p1` are the `start`/
`end` arguments. -/
def PixelBuffer.draw_line_aa (pb : PixelBuffer) (p0 p1 : Point) (c : Color) :
    PixelBuffer :=
  let steep := decide (|p1.y - p0.y| > |p1.x - p0.x|)
  let (s, e) := if steep then (Point.mk p0.y p0.x, Point.mk p1.y p1.x) else (p0, p1)
  let (s, e) := if s.x > e.x then (e, s) else (s, e)
  let dx := e.x - s.x
  let dy := e.y - s.y
  let gradient := if dx = 0 then 1 else dy / dx
  let xend := roundQ s.x
  let yend := s.y + gradient * (xend - s.x)
  let xgap := 1 - fractQ (s.x + 1/2)
  let xpxl1 := truncI xend
  let ypxl1 := ⌊yend⌋
  let pb1 :=
    if steep then
      (pb.plot ypxl1 xpxl1 c ((1 - fractQ yend) * xgap)).plot (ypxl1 + 1) xpxl1 c (fractQ yend * xgap)
    else
      (pb.plot xpxl1 ypxl1 c ((1 - fractQ yend) * xgap)).plot xpxl1 (ypxl1 + 1) c (fractQ yend * xgap)
  let intery := yend + gradient
  let xend2 := roundQ e.x
  let yend2 := e.y + gradient * (xend2 - e.x)
  let xgap2 := fractQ (e.x + 1/2)
  let xpxl2 := truncI xend2
  let ypxl2 := ⌊yend2⌋
  let pb2 :=
    if steep then
      (pb1.plot ypxl2 xpxl2 c ((1 - fractQ yend2) * xgap2)).plot (ypxl2 + 1) xpxl2 c (fractQ yend2 * xgap2)
    else
      (pb1.plot xpxl2 ypxl2 c ((1 - fractQ yend2) * xgap2)).plot xpxl2 (ypxl2 + 1) c (fractQ yend2 * xgap2)
  wuLoop steep c gradient (intRangeExcl (xpxl1 + 1) xpxl2) intery pb2

/-- Apply a list of `(x, y, coverage)` plots of one color in order. -/
def plotSeq (c : Color) : List (ℤ × ℤ × ℚ) → PixelBuffer → PixelBuffer
  | [], pb => pb
  | w :: t, pb => plotSeq c t (pb.plot w.1 w.2.1 c w.2.2)

/-- The loop plots of the horizontal line `(0,0)-(10,0)`: columns `1..9`,
full coverage on row 0, zero coverage on row 1. -/
def hlineLoopWrites (k : ℕ) : List (ℤ × ℤ × ℚ) :=
  (List.range k).flatMap fun i => [((i : ℤ) + 1, 0, (1 : ℚ)), ((i : ℤ) + 1, 1, 0)]

/-- All plots issued by `draw_line_aa (0,0) (10,0)`: the two endpoint pairs
with gap weight `1/2`, then the loop columns. -/
def hlineWrites : List (ℤ × ℤ × ℚ) :=
  [(0, 0, 1/2), (0, 1, 0), (10, 0, 1/2), (10, 1, 0)] ++ hlineLoopWrites 9

/-- The RGB bytes visible at a pixel (alpha ignored). -/
def rgbAt (pb : PixelBuffer) (x y : ℤ) : Option (ℕ × ℕ × ℕ) :=
  (pb.getPixel x y).map fun v => (Color.r ⟨v⟩, Color.g ⟨v⟩, Color.b ⟨v⟩)

/-! ## Theorems -/

theorem isqrtGo_spec (n : ℕ) : ∀ fuel acc, acc * acc ≤ n →
    Nat.sqrt n ≤ acc + fuel →
    isqrtGo n fuel acc * isqrtGo n fuel acc ≤ n ∧
    n < (isqrtGo n fuel acc + 1) * (isqrtGo n fuel acc + 1) := by
  intro fuel
  induction fuel with
  | zero =>
    intro acc h1 h2
    unfold isqrtGo
    refine ⟨h1, ?_⟩
    calc n < (Nat.sqrt n + 1) * (Nat.sqrt n + 1) := Nat.lt_succ_sqrt n
      _ ≤ (acc + 1) * (acc + 1) := Nat.mul_le_mul (by omega) (by omega)
  | succ fuel ih =>
    intro acc h1 h2
    unfold isqrtGo
    split
    · exact ih (acc + 1) (by assumption) (by omega)
    · exact ⟨h1, by omega⟩

theorem isqrtN_eq_sqrt (n : ℕ) : isqrtN n = Nat.sqrt n := by
  obtain ⟨h1, h2⟩ := isqrtGo_spec n n 0 (by omega)
    (by simpa using Nat.sqrt_le_self n)
  exact le_antisymm (Nat.le_sqrt.mpr h1) (Nat.lt_succ_iff.mp (Nat.sqrt_lt.mpr h2))

/-- The packed word of `Color::new` written in positional (base-256) form. -/
theorem Color.new_val {r g b a : ℕ} (hr : r < 256) (hg : g < 256)
    (hb : b < 256) ( _ha : a < 256) :
    (Color.new r g b a).val = a * 2 ^ 24 + r * 2 ^ 16 + g * 2 ^ 8 + b := by
  show (((a <<< 24) ||| (r <<< 16)) ||| (g <<< 8)) ||| b
      = a * 2 ^ 24 + r * 2 ^ 16 + g * 2 ^ 8 + b
  rw [Nat.shiftLeft_eq, Nat.shiftLeft_eq, Nat.shiftLeft_eq]
  have h1 : a * 2 ^ 24 ||| r * 2 ^ 16 = a * 2 ^ 24 + r * 2 ^ 16 := by
    have := Nat.mul_add_lt_is_or (show r * 2 ^ 16 < 2 ^ 24 by omega) a
    calc a * 2 ^ 24 ||| r * 2 ^ 16 = 2 ^ 24 * a ||| r * 2 ^ 16 := by ring_nf
    _ = 2 ^ 24 * a + r * 2 ^ 16 := (this).symm
    _ = a * 2 ^ 24 + r * 2 ^ 16 := by ring
  have h2 : (a * 2 ^ 24 + r * 2 ^ 16) ||| g * 2 ^ 8
      = a * 2 ^ 24 + r * 2 ^ 16 + g * 2 ^ 8 := by
    have := Nat.mul_add_lt_is_or (show g * 2 ^ 8 < 2 ^ 16 by omega) (2 ^ 8 * a + r)
    calc (a * 2 ^ 24 + r * 2 ^ 16) ||| g * 2 ^ 8
        = 2 ^ 16 * (2 ^ 8 * a + r) ||| g * 2 ^ 8 := by ring_nf
    _ = 2 ^ 16 * (2 ^ 8 * a + r) + g * 2 ^ 8 := (this).symm
    _ = a * 2 ^ 24 + r * 2 ^ 16 + g * 2 ^ 8 := by ring
  have h3 : (a * 2 ^ 24 + r * 2 ^ 16 + g * 2 ^ 8) ||| b
      = a * 2 ^ 24 + r * 2 ^ 16 + g * 2 ^ 8 + b := by
    have := Nat.mul_add_lt_is_or (show b < 2 ^ 8 by omega) (2 ^ 16 * a + 2 ^ 8 * r + g)
    calc (a * 2 ^ 24 + r * 2 ^ 16 + g * 2 ^ 8) ||| b
        = 2 ^ 8 * (2 ^ 16 * a + 2 ^ 8 * r + g) ||| b := by ring_nf
    _ = 2 ^ 8 * (2 ^ 16 * a + 2 ^ 8 * r + g) + b := (this).symm
    _ = a * 2 ^ 24 + r * 2 ^ 16 + g * 2 ^ 8 + b := by ring
  rw [h1, h2, h3]

theorem Color.r_new {r g b a : ℕ} (hr : r < 256) (hg : g < 256)
    (hb : b < 256) (ha : a < 256) : (Color.new r g b a).r = r := by
  show ((Color.new r g b a).val >>> 16) &&& 0xFF = r
  rw [Color.new_val hr hg hb ha, Nat.shiftRight_eq_div_pow]
  have : (0xFF : ℕ) = 2 ^ 8 - 1 := by norm_num
  rw [this, Nat.and_pow_two_sub_one_eq_mod]
  omega

theorem Color.g_new {r g b a : ℕ} (hr : r < 256) (hg : g < 256)
    (hb : b < 256) (ha : a < 256) : (Color.new r g b a).g = g := by
  show ((Color.new r g b a).val >>> 8) &&& 0xFF = g
  rw [Color.new_val hr hg hb ha, Nat.shiftRight_eq_div_pow]
  have : (0xFF : ℕ) = 2 ^ 8 - 1 := by norm_num
  rw [this, Nat.and_pow_two_sub_one_eq_mod]
  omega

theorem Color.b_new {r g b a : ℕ} (hr : r < 256) (hg : g < 256)
    (hb : b < 256) (ha : a < 256) : (Color.new r g b a).b = b := by
  show (Color.new r g b a).val &&& 0xFF = b
  rw [Color.new_val hr hg hb ha]
  have : (0xFF : ℕ) = 2 ^ 8 - 1 := by norm_num
  rw [this, Nat.and_pow_two_sub_one_eq_mod]
  omega

theorem Color.a_new {r g b a : ℕ} (hr : r < 256) (hg : g < 256)
    (hb : b < 256) (ha : a < 256) : (Color.new r g b a).a = a := by
  show ((Color.new r g b a).val >>> 24) &&& 0xFF = a
  rw [Color.new_val hr hg hb ha, Nat.shiftRight_eq_div_pow]
  have : (0xFF : ℕ) = 2 ^ 8 - 1 := by norm_num
  rw [this, Nat.and_pow_two_sub_one_eq_mod]
  omega

/-- Accessors always return bytes. -/
theorem Color.r_lt (c : Color) : c.r < 256 :=
  Nat.lt_succ_of_le (Nat.and_le_right)

theorem Color.g_lt (c : Color) : c.g < 256 :=
  Nat.lt_succ_of_le (Nat.and_le_right)

theorem Color.b_lt (c : Color) : c.b < 256 :=
  Nat.lt_succ_of_le (Nat.and_le_right)

theorem Color.a_lt (c : Color) : c.a < 256 :=
  Nat.lt_succ_of_le (Nat.and_le_right)

theorem toU8_le (q : ℚ) : toU8 q ≤ 255 := by
  unfold toU8; split
  · omega
  · exact min_le_left _ _

theorem toU8_lt (q : ℚ) : toU8 q < 256 := Nat.lt_succ_of_le (toU8_le q)

theorem toU8_eq_floor {q : ℚ} (h0 : 0 ≤ q) (h255 : q ≤ 255) :
    toU8 q = ⌊q⌋.toNat := by
  unfold toU8
  split
  · have : q = 0 := le_antisymm (by assumption) h0
    simp [this]
  · have hf : ⌊q⌋ ≤ 255 := by
      have := Int.floor_le_floor h255
      simpa using this
    omega

theorem toU8_natCast {n : ℕ} (h : n ≤ 255) : toU8 (n : ℚ) = n := by
  rw [toU8_eq_floor (by positivity) (by exact_mod_cast h)]
  simp

theorem toU8_zero : toU8 0 = 0 := by simp [toU8]

/-! ## Point (`src/point.rs`)

`Point { x: f32, y: f32 }` with `length` = `(x*x + y*y).sqrt()` and
`distance(other)` = `(*self - *other).length()`. -/

theorem getD_set_self {l : List ℕ} {i : ℕ} {a : ℕ} (h : i < l.length) :
    (l.set i a).getD i 0 = a := by
  simp [List.getD_eq_getElem?_getD, List.getElem?_set_self h]

theorem getD_set_ne {l : List ℕ} {i j : ℕ} {a : ℕ} (h : i ≠ j) :
    (l.set i a).getD j 0 = l.getD j 0 := by
  simp [List.getD_eq_getElem?_getD, List.getElem?_set_ne h]

/-- The bounds check guarantees the index is inside the constructed buffer. -/
theorem PixelBuffer.index_lt {pb : PixelBuffer}
    (hlen : pb.buffer.length = pb.width * pb.height) {x y : ℤ}
    (h : pb.inBounds x y) : pb.index x y < pb.buffer.length := by
  obtain ⟨hx0, hxw, hy0, hyh⟩ := h
  have hx' : x.toNat < pb.width := by omega
  have hy' : y.toNat < pb.height := by omega
  rw [hlen]
  calc y.toNat * pb.width + x.toNat
      < y.toNat * pb.width + pb.width := by omega
    _ = (y.toNat + 1) * pb.width := by ring
    _ ≤ pb.height * pb.width := Nat.mul_le_mul_right _ (by omega)
    _ = pb.width * pb.height := Nat.mul_comm _ _

/-- Distinct in-bounds pixels use distinct buffer indices. -/
theorem PixelBuffer.index_inj {pb : PixelBuffer} {x y x' y' : ℤ}
    (h : pb.inBounds x y) (h' : pb.inBounds x' y')
    (hne : (x, y) ≠ (x', y')) : pb.index x y ≠ pb.index x' y' := by
  obtain ⟨hx0, hxw, hy0, hyh⟩ := h
  obtain ⟨hx0', hxw', hy0', hyh'⟩ := h'
  unfold PixelBuffer.index
  intro heq
  apply hne
  have hx : x.toNat < pb.width := by omega
  have hx' : x'.toNat < pb.width := by omega
  have hyy : y.toNat = y'.toNat ∧ x.toNat = x'.toNat := by
    constructor
    · by_contra hne'
      rcases Nat.lt_or_ge y.toNat y'.toNat with hlt | hge
      · have : y.toNat * pb.width + x.toNat < y'.toNat * pb.width := by
          calc y.toNat * pb.width + x.toNat < (y.toNat + 1) * pb.width := by
                 rw [Nat.add_mul]; omega
            _ ≤ y'.toNat * pb.width := Nat.mul_le_mul_right _ (by omega)
        omega
      · have hlt : y'.toNat < y.toNat := by omega
        have : y'.toNat * pb.width + x'.toNat < y.toNat * pb.width := by
          calc y'.toNat * pb.width + x'.toNat < (y'.toNat + 1) * pb.width := by
                 rw [Nat.add_mul]; omega
            _ ≤ y.toNat * pb.width := Nat.mul_le_mul_right _ (by omega)
        omega
    · by_contra hne'
      rcases Nat.lt_or_ge y.toNat y'.toNat with hlt | hge
      · have : y.toNat * pb.width + x.toNat < y'.toNat * pb.width := by
          calc y.toNat * pb.width + x.toNat < (y.toNat + 1) * pb.width := by
                 rw [Nat.add_mul]; omega
            _ ≤ y'.toNat * pb.width := Nat.mul_le_mul_right _ (by omega)
        omega
      · rcases Nat.lt_or_ge y'.toNat y.toNat with hlt' | hge'
        · have : y'.toNat * pb.width + x'.toNat < y.toNat * pb.width := by
            calc y'.toNat * pb.width + x'.toNat < (y'.toNat + 1) * pb.width := by
                   rw [Nat.add_mul]; omega
              _ ≤ y.toNat * pb.width := Nat.mul_le_mul_right _ (by omega)
          omega
        · have : y.toNat = y'.toNat := by omega
          rw [this] at heq
          omega
  have : x = x' := by omega
  have : y = y' := by omega
  simp_all

/-- The channels of the word written by the shared blend body. -/
theorem blendWord_channels (bg : ℕ) (c : Color) :
    Color.r ⟨blendWord bg c⟩
        = toU8 ((1 - (c.a : ℚ) / 255) * (Color.r ⟨bg⟩ : ℚ) + (c.a : ℚ) / 255 * (c.r : ℚ)) ∧
    Color.g ⟨blendWord bg c⟩
        = toU8 ((1 - (c.a : ℚ) / 255) * (Color.g ⟨bg⟩ : ℚ) + (c.a : ℚ) / 255 * (c.g : ℚ)) ∧
    Color.b ⟨blendWord bg c⟩
        = toU8 ((1 - (c.a : ℚ) / 255) * (Color.b ⟨bg⟩ : ℚ) + (c.a : ℚ) / 255 * (c.b : ℚ)) ∧
    Color.a ⟨blendWord bg c⟩ = 255 := by
  unfold blendWord
  refine ⟨?_, ?_, ?_, ?_⟩
  · exact Color.r_new (toU8_lt _) (toU8_lt _) (toU8_lt _) (by norm_num)
  · exact Color.g_new (toU8_lt _) (toU8_lt _) (toU8_lt _) (by norm_num)
  · exact Color.b_new (toU8_lt _) (toU8_lt _) (toU8_lt _) (by norm_num)
  · exact Color.a_new (toU8_lt _) (toU8_lt _) (toU8_lt _) (by norm_num)

/-- The alpha-over channel value stays inside `[0, 255]`. -/
theorem blend_channel_range (α u v : ℚ) (hα0 : 0 ≤ α) (hα1 : α ≤ 1)
    (hu : 0 ≤ u) (hu' : u ≤ 255) (hv : 0 ≤ v) (hv' : v ≤ 255) :
    0 ≤ (1 - α) * u + α * v ∧ (1 - α) * u + α * v ≤ 255 := by
  constructor <;> nlinarith

/-- C9: for all byte values `r, g, b, a`, the accessors `r()`, `g()`, `b()`,
`a()` applied to `Color::new(r, g, b, a)` recover exactly `r`, `g`, `b`, `a`,
and the packed 32-bit layout is MSB→LSB = alpha, red, green, blue
(`val = a·2²⁴ + r·2¹⁶ + g·2⁸ + b`). -/
theorem C9_color_new_roundtrip (r g b a : ℕ) (hr : r < 256) (hg : g < 256)
    (hb : b < 256) (ha : a < 256) :
    (Color.new r g b a).r = r ∧ (Color.new r g b a).g = g ∧
    (Color.new r g b a).b = b ∧ (Color.new r g b a).a = a ∧
    (Color.new r g b a).val = a * 2 ^ 24 + r * 2 ^ 16 + g * 2 ^ 8 + b :=
  ⟨Color.r_new hr hg hb ha, Color.g_new hr hg hb ha, Color.b_new hr hg hb ha,
   Color.a_new hr hg hb ha, Color.new_val hr hg hb ha⟩

/-- Witness for C9 at the concrete bytes `(12, 34, 56, 78)`. -/
theorem C9_color_new_roundtrip_witness :
    (Color.new 12 34 56 78).r = 12 ∧ (Color.new 12 34 56 78).g = 34 ∧
    (Color.new 12 34 56 78).b = 56 ∧ (Color.new 12 34 56 78).a = 78 ∧
    (Color.new 12 34 56 78).val = 78 * 2 ^ 24 + 12 * 2 ^ 16 + 34 * 2 ^ 8 + 56 :=
  C9_color_new_roundtrip 12 34 56 78 (by decide) (by decide) (by decide) (by decide)

/-- C4: for every in-bounds coordinate and every foreground color,
`blend_pixel` stores for each of the red, green and blue channels the value
`bg·(1−a) + fg·a` truncated (floored) to a byte, where `a` is the foreground
alpha byte divided by 255, and stores `255` as the resulting alpha byte. -/
theorem C4_blend_pixel_over (pb : PixelBuffer)
    (hlen : pb.buffer.length = pb.width * pb.height) (x y : ℤ) (c : Color)
    (hin : pb.inBounds x y) :
    ∃ bg v, pb.getPixel x y = some bg ∧
      (pb.blend_pixel x y c).getPixel x y = some v ∧
      Color.r ⟨v⟩ = (⌊(Color.r ⟨bg⟩ : ℚ) * (1 - (c.a : ℚ) / 255)
          + (c.r : ℚ) * ((c.a : ℚ) / 255)⌋).toNat ∧
      Color.g ⟨v⟩ = (⌊(Color.g ⟨bg⟩ : ℚ) * (1 - (c.a : ℚ) / 255)
          + (c.g : ℚ) * ((c.a : ℚ) / 255)⌋).toNat ∧
      Color.b ⟨v⟩ = (⌊(Color.b ⟨bg⟩ : ℚ) * (1 - (c.a : ℚ) / 255)
          + (c.b : ℚ) * ((c.a : ℚ) / 255)⌋).toNat ∧
      Color.a ⟨v⟩ = 255 := by
  have hidx := PixelBuffer.index_lt hlen hin
  set bg := pb.buffer.getD (pb.index x y) 0 with hbg
  have hα0 : (0 : ℚ) ≤ (c.a : ℚ) / 255 := by positivity
  have hα1 : (c.a : ℚ) / 255 ≤ 1 := by
    rw [div_le_one (by norm_num)]
    exact_mod_cast Nat.lt_succ_iff.mp (Color.a_lt c)
  have hch := blendWord_channels bg c
  have hR : Color.r ⟨blendWord bg c⟩
      = (⌊(Color.r ⟨bg⟩ : ℚ) * (1 - (c.a : ℚ) / 255) + (c.r : ℚ) * ((c.a : ℚ) / 255)⌋).toNat := by
    rw [hch.1]
    obtain ⟨h0, h255⟩ := blend_channel_range ((c.a : ℚ) / 255)
      (Color.r ⟨bg⟩ : ℚ) (c.r : ℚ) hα0 hα1
      (by positivity) (by exact_mod_cast Nat.lt_succ_iff.mp (Color.r_lt ⟨bg⟩))
      (by positivity) (by exact_mod_cast Nat.lt_succ_iff.mp (Color.r_lt c))
    rw [toU8_eq_floor h0 h255]
    congr 1
    ring_nf
  have hG : Color.g ⟨blendWord bg c⟩
      = (⌊(Color.g ⟨bg⟩ : ℚ) * (1 - (c.a : ℚ) / 255) + (c.g : ℚ) * ((c.a : ℚ) / 255)⌋).toNat := by
    rw [hch.2.1]
    obtain ⟨h0, h255⟩ := blend_channel_range ((c.a : ℚ) / 255)
      (Color.g ⟨bg⟩ : ℚ) (c.g : ℚ) hα0 hα1
      (by positivity) (by exact_mod_cast Nat.lt_succ_iff.mp (Color.g_lt ⟨bg⟩))
      (by positivity) (by exact_mod_cast Nat.lt_succ_iff.mp (Color.g_lt c))
    rw [toU8_eq_floor h0 h255]
    congr 1
    ring_nf
  have hB : Color.b ⟨blendWord bg c⟩
      = (⌊(Color.b ⟨bg⟩ : ℚ) * (1 - (c.a : ℚ) / 255) + (c.b : ℚ) * ((c.a : ℚ) / 255)⌋).toNat := by
    rw [hch.2.2.1]
    obtain ⟨h0, h255⟩ := blend_channel_range ((c.a : ℚ) / 255)
      (Color.b ⟨bg⟩ : ℚ) (c.b : ℚ) hα0 hα1
      (by positivity) (by exact_mod_cast Nat.lt_succ_iff.mp (Color.b_lt ⟨bg⟩))
      (by positivity) (by exact_mod_cast Nat.lt_succ_iff.mp (Color.b_lt c))
    rw [toU8_eq_floor h0 h255]
    congr 1
    ring_nf
  refine ⟨bg, blendWord bg c, ?_, ?_, hR, hG, hB, hch.2.2.2⟩
  · simp only [PixelBuffer.getPixel, if_pos hin]
  · simp only [PixelBuffer.plot, PixelBuffer.blend_pixel, if_pos hin,
      PixelBuffer.getPixel]
    rw [if_pos (by exact hin)]
    congr 1
    rw [hbg]
    exact getD_set_self hidx

/-- Witness for C4: blending half-transparent white `(255,255,255,128)` onto
the fresh black 4×3 buffer at `(1, 2)`. -/
theorem C4_blend_pixel_over_witness :
    ∃ bg v, (PixelBuffer.new 4 3).getPixel 1 2 = some bg ∧
      ((PixelBuffer.new 4 3).blend_pixel 1 2 (Color.new 255 255 255 128)).getPixel 1 2 = some v ∧
      Color.r ⟨v⟩ = (⌊(Color.r ⟨bg⟩ : ℚ) * (1 - ((Color.new 255 255 255 128).a : ℚ) / 255)
          + ((Color.new 255 255 255 128).r : ℚ) * (((Color.new 255 255 255 128).a : ℚ) / 255)⌋).toNat ∧
      Color.g ⟨v⟩ = (⌊(Color.g ⟨bg⟩ : ℚ) * (1 - ((Color.new 255 255 255 128).a : ℚ) / 255)
          + ((Color.new 255 255 255 128).g : ℚ) * (((Color.new 255 255 255 128).a : ℚ) / 255)⌋).toNat ∧
      Color.b ⟨v⟩ = (⌊(Color.b ⟨bg⟩ : ℚ) * (1 - ((Color.new 255 255 255 128).a : ℚ) / 255)
          + ((Color.new 255 255 255 128).b : ℚ) * (((Color.new 255 255 255 128).a : ℚ) / 255)⌋).toNat ∧
      Color.a ⟨v⟩ = 255 :=
  C4_blend_pixel_over (PixelBuffer.new 4 3) (by decide) 1 2
    (Color.new 255 255 255 128) (by constructor <;> decide)

/-- C5: for every coordinate outside `[0,width)×[0,height)` and every color,
`set_pixel` and `blend_pixel` leave the buffer unchanged (and cannot fail:
they are total functions), and whenever the bounds check passes the index
`y·width + x` lies inside the constructed buffer. -/
theorem C5_bounds_clip (pb : PixelBuffer)
    (hlen : pb.buffer.length = pb.width * pb.height) (x y : ℤ) (c : Color) :
    (¬ pb.inBounds x y → pb.set_pixel x y c = pb ∧ pb.blend_pixel x y c = pb) ∧
    (pb.inBounds x y → pb.index x y < pb.buffer.length) := by
  constructor
  · intro hout
    constructor
    · simp [PixelBuffer.set_pixel, hout]
    · simp [PixelBuffer.blend_pixel, hout]
  · intro hin
    exact PixelBuffer.index_lt hlen hin

/-- Witness for C5 on the fresh 4×3 buffer: `(−1, 0)` and `(width, 0)` do not
mutate the buffer, and in-bounds `(2, 1)` produces an in-range index. -/
theorem C5_bounds_clip_witness :
    ((PixelBuffer.new 4 3).set_pixel (-1) 0 (Color.new 1 2 3 4) = PixelBuffer.new 4 3 ∧
     (PixelBuffer.new 4 3).blend_pixel (-1) 0 (Color.new 1 2 3 4) = PixelBuffer.new 4 3) ∧
    ((PixelBuffer.new 4 3).set_pixel 4 0 (Color.new 1 2 3 4) = PixelBuffer.new 4 3 ∧
     (PixelBuffer.new 4 3).blend_pixel 4 0 (Color.new 1 2 3 4) = PixelBuffer.new 4 3) ∧
    (PixelBuffer.new 4 3).index 2 1 < (PixelBuffer.new 4 3).buffer.length :=
  ⟨(C5_bounds_clip (PixelBuffer.new 4 3) (by decide) (-1) 0 (Color.new 1 2 3 4)).1
      (by intro h; exact absurd h.1 (by decide)),
   (C5_bounds_clip (PixelBuffer.new 4 3) (by decide) 4 0 (Color.new 1 2 3 4)).1
      (by intro h; exact absurd h.2.1 (by decide)),
   (C5_bounds_clip (PixelBuffer.new 4 3) (by decide) 2 1 (Color.new 1 2 3 4)).2
      (by refine ⟨by decide, by decide, by decide, by decide⟩)⟩

/-- C10: an in-bounds `plot(x, y, color, 0.0)` keeps the pixel's red, green
and blue bytes but overwrites its alpha byte with 255; hence it changes the
stored 32-bit word whenever the background alpha byte was not 255. -/
theorem C10_plot_zero_coverage (pb : PixelBuffer)
    (hlen : pb.buffer.length = pb.width * pb.height) (x y : ℤ) (c : Color)
    (hin : pb.inBounds x y) :
    ∃ bg v, pb.getPixel x y = some bg ∧
      (pb.plot x y c 0).getPixel x y = some v ∧
      Color.r ⟨v⟩ = Color.r ⟨bg⟩ ∧ Color.g ⟨v⟩ = Color.g ⟨bg⟩ ∧
      Color.b ⟨v⟩ = Color.b ⟨bg⟩ ∧ Color.a ⟨v⟩ = 255 ∧
      (Color.a ⟨bg⟩ ≠ 255 → v ≠ bg) := by
  have hidx := PixelBuffer.index_lt hlen hin
  set aa := c.withAlpha (toU8 ((c.a : ℚ) * 0)) with haa
  have haa0 : aa.a = 0 := by
    rw [haa]
    unfold Color.withAlpha
    rw [Color.a_new (Color.r_lt c) (Color.g_lt c) (Color.b_lt c) (by simp [toU8_lt])]
    simp [toU8_zero]
  set bg := pb.buffer.getD (pb.index x y) 0 with hbg
  have hch := blendWord_channels bg aa
  have hzero : (1 - (aa.a : ℚ) / 255) = 1 ∧ ((aa.a : ℚ) / 255) = 0 := by
    rw [haa0]; norm_num
  have hr : Color.r ⟨blendWord bg aa⟩ = Color.r ⟨bg⟩ := by
    rw [hch.1, hzero.1, hzero.2]
    simp only [one_mul, zero_mul, add_zero]
    exact toU8_natCast (Nat.lt_succ_iff.mp (Color.r_lt ⟨bg⟩))
  have hg : Color.g ⟨blendWord bg aa⟩ = Color.g ⟨bg⟩ := by
    rw [hch.2.1, hzero.1, hzero.2]
    simp only [one_mul, zero_mul, add_zero]
    exact toU8_natCast (Nat.lt_succ_iff.mp (Color.g_lt ⟨bg⟩))
  have hb : Color.b ⟨blendWord bg aa⟩ = Color.b ⟨bg⟩ := by
    rw [hch.2.2.1, hzero.1, hzero.2]
    simp only [one_mul, zero_mul, add_zero]
    exact toU8_natCast (Nat.lt_succ_iff.mp (Color.b_lt ⟨bg⟩))
  refine ⟨bg, blendWord bg aa, ?_, ?_, hr, hg, hb, hch.2.2.2, ?_⟩
  · simp only [PixelBuffer.getPixel, if_pos hin]
  · simp only [PixelBuffer.plot, PixelBuffer.blend_pixel, if_pos hin,
      PixelBuffer.getPixel]
    rw [if_pos (by exact hin)]
    congr 1
    rw [hbg]
    exact getD_set_self hidx
  · intro hbga habs
    exact hbga (habs ▸ hch.2.2.2)

/-- Witness for C10: plotting any color at zero coverage onto the fresh black
3×3 buffer (background alpha byte 0) at `(1, 1)` changes the stored word. -/
theorem C10_plot_zero_coverage_witness :
    ∃ bg v, (PixelBuffer.new 3 3).getPixel 1 1 = some bg ∧
      ((PixelBuffer.new 3 3).plot 1 1 (Color.new 9 8 7 6) 0).getPixel 1 1 = some v ∧
      Color.r ⟨v⟩ = Color.r ⟨bg⟩ ∧ Color.g ⟨v⟩ = Color.g ⟨bg⟩ ∧
      Color.b ⟨v⟩ = Color.b ⟨bg⟩ ∧ Color.a ⟨v⟩ = 255 ∧
      (Color.a ⟨bg⟩ ≠ 255 → v ≠ bg) :=
  C10_plot_zero_coverage (PixelBuffer.new 3 3) (by decide) 1 1
    (Color.new 9 8 7 6) (by refine ⟨by decide, by decide, by decide, by decide⟩)

theorem ratSqrt_nonneg (q : ℚ) : 0 ≤ ratSqrt q := by
  unfold ratSqrt
  split
  · exact le_refl 0
  · positivity

theorem ratSqrt_sq (x : ℚ) : ratSqrt (x * x) = |x| := by
  unfold ratSqrt
  rcases eq_or_ne x 0 with hx | hx
  · simp [hx]
  · have hpos : 0 < x * x := mul_self_pos.mpr hx
    rw [if_neg (not_le.mpr hpos)]
    have hnum : (x * x).num.toNat = x.num.natAbs * x.num.natAbs := by
      rw [Rat.mul_self_num, ← Int.natAbs_mul_self, Int.toNat_natCast]
    have hden : (x * x).den = x.den * x.den := Rat.mul_self_den x
    rw [hnum, hden, isqrtN_eq_sqrt, isqrtN_eq_sqrt, Nat.sqrt_eq, Nat.sqrt_eq]
    have hd : (0 : ℚ) < (x.den : ℚ) := by exact_mod_cast x.pos
    rw [eq_comm]
    calc |x| = |(x.num : ℚ) / (x.den : ℚ)| := by rw [Rat.num_div_den]
      _ = |(x.num : ℚ)| / |(x.den : ℚ)| := abs_div _ _
      _ = |(x.num : ℚ)| / (x.den : ℚ) := by rw [abs_of_pos hd]
      _ = (x.num.natAbs : ℚ) / (x.den : ℚ) := by rw [Int.cast_natAbs, Int.cast_abs]

theorem ratSqrt_eq_zero_iff {q : ℚ} (h : 0 ≤ q) : ratSqrt q = 0 ↔ q = 0 := by
  unfold ratSqrt
  constructor
  · intro hz
    by_contra hq
    have hpos : 0 < q := lt_of_le_of_ne h (Ne.symm hq)
    rw [if_neg (not_le.mpr hpos)] at hz
    have hnum : 0 < q.num := Rat.num_pos.mpr hpos
    have h1 : 0 < isqrtN q.num.toNat := by
      rw [isqrtN_eq_sqrt, Nat.sqrt_pos]
      omega
    have h2 : 0 < isqrtN q.den := by
      rw [isqrtN_eq_sqrt, Nat.sqrt_pos]
      exact q.pos
    have hgt : (0 : ℚ) < (isqrtN q.num.toNat : ℚ) / (isqrtN q.den : ℚ) := by
      apply div_pos <;> exact_mod_cast ‹_›
    exact absurd hz (ne_of_gt hgt)
  · intro hq
    simp [hq]

/-! ## Rectangle (`src/shape.rs`, `impl Shape for Rectangle`) -/

/-- Clamping the offset and adding back the corner is clamping into the
interval. -/
theorem add_clamp (t v w : ℚ) (hw : 0 ≤ w) :
    t + min (max (v - t) 0) w = min (max v t) (t + w) := by
  rcases le_total (v - t) 0 with h | h
  · rw [max_eq_right h, min_eq_left hw, max_eq_right (by linarith : v ≤ t),
      min_eq_left (by linarith : t ≤ t + w)]
    ring
  · rcases le_total (v - t) w with h' | h'
    · rw [max_eq_left h, min_eq_left h', max_eq_left (by linarith : t ≤ v),
        min_eq_left (by linarith : v ≤ t + w)]
      ring
    · rw [max_eq_left h, min_eq_right h', max_eq_left (by linarith : t ≤ v),
        min_eq_right (by linarith : t + w ≤ v)]

/-- The clamped coordinate is a fixed point exactly on the interval. -/
theorem clamp_eq_self_iff (t v w : ℚ) (hw : 0 ≤ w) :
    min (max v t) (t + w) = v ↔ t ≤ v ∧ v ≤ t + w := by
  constructor
  · intro h
    rcases le_total v t with hvt | hvt
    · rw [max_eq_right hvt, min_eq_left (by linarith)] at h
      constructor <;> linarith
    · rw [max_eq_left hvt] at h
      rcases le_total v (t + w) with hvw | hvw
      · exact ⟨hvt, hvw⟩
      · rw [min_eq_right hvw] at h
        constructor <;> linarith
  · intro h
    rw [max_eq_left h.1, min_eq_left h.2]

/-- C8: for a rectangle with nonnegative extents, `Rectangle::distance` is
the Euclidean distance from the point to the point clamped into the
rectangle, is never negative, and is `0` exactly when the point is contained;
concretely, for top-left `(0,0)` and extents `10 × 10`,
`distance((5,5)) = 0` and `distance((20,5)) = 10`. -/
theorem C8_rectangle_distance (rect : Rectangle) (p : Point)
    (hw : 0 ≤ rect.width) (hh : 0 ≤ rect.height) :
    rect.distance p = p.distance
        ⟨min (max p.x rect.top_left.x) (rect.top_left.x + rect.width),
         min (max p.y rect.top_left.y) (rect.top_left.y + rect.height)⟩ ∧
    0 ≤ rect.distance p ∧
    (rect.distance p = 0 ↔ rect.contains p) ∧
    Rectangle.distance ⟨⟨0, 0⟩, 10, 10⟩ ⟨5, 5⟩ = 0 ∧
    Rectangle.distance ⟨⟨0, 0⟩, 10, 10⟩ ⟨20, 5⟩ = 10 := by
  have hcx := add_clamp rect.top_left.x p.x rect.width hw
  have hcy := add_clamp rect.top_left.y p.y rect.height hh
  have hdist : rect.distance p = p.distance
      ⟨min (max p.x rect.top_left.x) (rect.top_left.x + rect.width),
       min (max p.y rect.top_left.y) (rect.top_left.y + rect.height)⟩ := by
    show p.distance
        ⟨rect.top_left.x + min (max (p.x - rect.top_left.x) 0) rect.width,
         rect.top_left.y + min (max (p.y - rect.top_left.y) 0) rect.height⟩ = _
    rw [hcx, hcy]
  refine ⟨hdist, ?_, ?_, ?_, ?_⟩
  · show (0 : ℚ) ≤ rect.distance p
    rw [hdist]
    exact ratSqrt_nonneg _
  · rw [hdist]
    unfold Point.distance Point.length Point.sub
    set cx := min (max p.x rect.top_left.x) (rect.top_left.x + rect.width) with hcxdef
    set cy := min (max p.y rect.top_left.y) (rect.top_left.y + rect.height) with hcydef
    have hS : (0 : ℚ) ≤ (p.x - cx) * (p.x - cx) + (p.y - cy) * (p.y - cy) :=
      add_nonneg (mul_self_nonneg _) (mul_self_nonneg _)
    rw [ratSqrt_eq_zero_iff hS]
    rw [add_eq_zero_iff_of_nonneg (mul_self_nonneg _) (mul_self_nonneg _),
      mul_self_eq_zero, mul_self_eq_zero, sub_eq_zero, sub_eq_zero]
    unfold Rectangle.contains
    rw [eq_comm (b := cx), eq_comm (b := cy), hcxdef, hcydef,
      clamp_eq_self_iff _ _ _ hw, clamp_eq_self_iff _ _ _ hh]
    tauto
  · show Rectangle.distance ⟨⟨0, 0⟩, 10, 10⟩ ⟨5, 5⟩ = 0
    decide
  · show Rectangle.distance ⟨⟨0, 0⟩, 10, 10⟩ ⟨20, 5⟩ = 10
    decide

/-- Witness for C8 at the rectangle with top-left `(1,2)`, extents `3 × 4`,
and the outside point `(0,0)`. -/
theorem C8_rectangle_distance_witness :
    Rectangle.distance ⟨⟨1, 2⟩, 3, 4⟩ ⟨0, 0⟩ = Point.distance ⟨0, 0⟩
        ⟨min (max 0 1) (1 + 3), min (max 0 2) (2 + 4)⟩ ∧
    0 ≤ Rectangle.distance ⟨⟨1, 2⟩, 3, 4⟩ ⟨0, 0⟩ ∧
    (Rectangle.distance ⟨⟨1, 2⟩, 3, 4⟩ ⟨0, 0⟩ = 0 ↔
      Rectangle.contains ⟨⟨1, 2⟩, 3, 4⟩ ⟨0, 0⟩) ∧
    Rectangle.distance ⟨⟨0, 0⟩, 10, 10⟩ ⟨5, 5⟩ = 0 ∧
    Rectangle.distance ⟨⟨0, 0⟩, 10, 10⟩ ⟨20, 5⟩ = 10 :=
  C8_rectangle_distance ⟨⟨1, 2⟩, 3, 4⟩ ⟨0, 0⟩ (by norm_num) (by norm_num)

/-! ## Canvas (`src/canvas.rs`)

`Canvas` owns its own `Vec<u32>` buffer and duplicates the blend logic of
`PixelBuffer::blend_pixel` verbatim (`Canvas::blend_pixel`,
src/canvas.rs:139-155); the shared body is `blendWord` above.

The `Shape` capability as *used* by `Canvas` (`shape.contains(x, y)`,
`shape.distance(x, y)`, and `let (x, y, w, h) = shape.bounding_box()`): the
trait snapshot in src/shape.rs passes `Point`s and returns corner points,
while canvas.rs calls the same capabilities coordinate-wise with an
`(x, y, w, h)` bounding box — the repository snapshot is mid-refactor.  The
embedding keeps the canvas-side signatures and instantiates them for
`Rectangle` with the `impl Shape for Rectangle` bodies of src/shape.rs. -/

/-- The source's coverage is a ratio of at most 1: at most 16 of the 16
samples can be inside. -/
theorem calculate_coverage_le_one (shape : ShapeI) (x y : ℚ) :
    Canvas.calculate_coverage shape x y ≤ 1 := by
  unfold Canvas.calculate_coverage
  have hlen : (sampleOffsets.filter fun s => shape.contains (x + s.1) (y + s.2)).length
      ≤ sampleOffsets.length := List.length_filter_le _ _
  have hn : (sampleOffsets.length : ℚ) = 16 := by decide
  rw [hn, div_le_one (by norm_num)]
  calc ((sampleOffsets.filter fun s => shape.contains (x + s.1) (y + s.2)).length : ℚ)
      ≤ (sampleOffsets.length : ℚ) := by exact_mod_cast hlen
    _ = 16 := hn

theorem calculate_coverage_nonneg (shape : ShapeI) (x y : ℚ) :
    0 ≤ Canvas.calculate_coverage shape x y := by
  unfold Canvas.calculate_coverage
  positivity

/-- The fill loop body never fires: `coverage > 1.0` is impossible. -/
theorem fillPixel_id (cv : Canvas) (shape : ShapeI) (color : Color)
    (px py : ℤ) : cv.fillPixel shape color px py = cv := by
  unfold Canvas.fillPixel
  rw [if_neg (not_lt.mpr (calculate_coverage_le_one shape (px : ℚ) (py : ℚ)))]

/-- Hence the entire fill pass is the identity on the canvas. -/
theorem fill_shape_aa_id (cv : Canvas) (shape : ShapeI) (color : Color) :
    cv.fill_shape_aa shape color = cv := by
  unfold Canvas.fill_shape_aa
  rcases shape.bounding_box with ⟨x, y, w, h⟩
  show (pixelGrid ⌊x⌋ ⌈x + w⌉ ⌊y⌋ ⌈y + h⌉).foldl
      (fun acc pq => Canvas.fillPixel acc shape color pq.1 pq.2) cv = cv
  generalize pixelGrid ⌊x⌋ ⌈x + w⌉ ⌊y⌋ ⌈y + h⌉ = l
  induction l generalizing cv with
  | nil => rfl
  | cons p t ih => rw [List.foldl_cons, fillPixel_id]; exact ih cv

/-- C1: the claim says filling `Rectangle(0,0,10,10)` with an opaque fill
color turns every interior pixel into the fill color.  The code disagrees:
`fill_shape_aa` blends only when `coverage > 1.0`, and coverage (a count of
at most 16 samples divided by 16) never exceeds 1, so the fill pass writes
nothing at all.  For every canvas with a fill color set and stroke disabled,
`rectangle(0,0,10,10)` is the identity; on the concrete `canvasC1` the
strictly interior pixel `(5,5)` keeps the background word `0`, which is not
the fill color. -/
theorem C1_fill_opaque_rectangle (cv : Canvas) (c : Color)
    (hf : cv.fill_color = some c) (hs : cv.stroke_color = none) :
    cv.rectangle 0 0 10 10 = cv ∧
    Canvas.getPixel (Canvas.rectangle canvasC1 0 0 10 10) 5 5 = some 0 ∧
    (Color.new 255 0 0 255).val ≠ 0 := by
  have hgen : ∀ (cv' : Canvas) (c' : Color), cv'.fill_color = some c' →
      cv'.stroke_color = none → cv'.rectangle 0 0 10 10 = cv' := by
    intro cv' c' hf' hs'
    unfold Canvas.rectangle Canvas.draw_shape_aa
    simp only [hf', fill_shape_aa_id, hs']
  refine ⟨hgen cv c hf hs, ?_, by decide⟩
  rw [hgen canvasC1 (Color.new 255 0 0 255) rfl rfl]
  decide

/-- Witness for C1 at the concrete canvas `canvasC1` (opaque red fill,
stroke disabled). -/
theorem C1_fill_opaque_rectangle_witness :
    Canvas.rectangle canvasC1 0 0 10 10 = canvasC1 ∧
    Canvas.getPixel (Canvas.rectangle canvasC1 0 0 10 10) 5 5 = some 0 ∧
    (Color.new 255 0 0 255).val ≠ 0 :=
  C1_fill_opaque_rectangle canvasC1 (Color.new 255 0 0 255) rfl rfl

/-- Counterexample to C2 as stated: at pixel `(5,5)` of
`Rectangle(0,0,10,10)` the claim's 4-sample coverage is `1 > 0`, so the
claim requires a blend there, yet the source's fill pass leaves the canvas
untouched (pixel word still `0`, not the fill color); moreover the source
samples 16 offsets, not the claim's 4 — on the thin `Rectangle(0,0,1/4,10)`
the two coverages differ (`1/4` vs `1/2`). -/
theorem C2_fill_counterexample :
    specCoverage4 (Rectangle.shape ⟨⟨0, 0⟩, 10, 10⟩) 5 5 = 1 ∧
    Canvas.fill_shape_aa canvasC1 (Rectangle.shape ⟨⟨0, 0⟩, 10, 10⟩)
        (Color.new 255 0 0 255) = canvasC1 ∧
    Canvas.getPixel canvasC1 5 5 = some 0 ∧ (Color.new 255 0 0 255).val ≠ 0 ∧
    Canvas.calculate_coverage (Rectangle.shape ⟨⟨0, 0⟩, 1/4, 10⟩) 0 0 = 1/4 ∧
    specCoverage4 (Rectangle.shape ⟨⟨0, 0⟩, 1/4, 10⟩) 0 0 = 1/2 :=
  ⟨by decide, fill_shape_aa_id canvasC1 _ _, by decide, by decide, by decide, by decide⟩

/-- C2 amended: the fill pass visits every integer pixel of the outward
floor/ceil-rounded bounding box and computes coverage as the count of the
**16** fixed sub-pixel offsets (the 4×4 grid over 0.125, 0.375, 0.625,
0.875) satisfying `shape.contains`, divided by 16; it blends only when
`coverage > 1.0`, which never holds (coverage always lies in `[0, 1]`), so
the fill pass leaves every canvas unchanged. -/
theorem C2_fill_coverage_and_threshold (cv : Canvas) (shape : ShapeI) (color : Color) :
    (∀ x y : ℚ, 0 ≤ Canvas.calculate_coverage shape x y ∧
        Canvas.calculate_coverage shape x y ≤ 1) ∧
    cv.fill_shape_aa shape color = cv :=
  ⟨fun x y => ⟨calculate_coverage_nonneg shape x y, calculate_coverage_le_one shape x y⟩,
   fill_shape_aa_id cv shape color⟩

set_option maxRecDepth 10000 in
/-- Counterexample to C3 as stated: pixel `(4,4)` of the stroked
`Rectangle(2,2,4,4)` on `canvasC3` has `|shape.distance| = 0 ≤
stroke_weight/2`, so the claim requires the stroke color at full opacity
(`set_pixel`, i.e. pure white) there; the code instead computes coverage
`(1/2 − 0)/1 = 1/2` and alpha-blends at byte `127`, storing mid-gray. -/
theorem C3_stroke_counterexample :
    (Rectangle.shape ⟨⟨2, 2⟩, 4, 4⟩).distance 4 4 = 0 ∧
    Canvas.getPixel (Canvas.rectangle canvasC3 2 2 4 4) 4 4
        = some (Color.new 127 127 127 255).val ∧
    (Color.new 127 127 127 255).val ≠ (Color.new 255 255 255 255).val := by
  refine ⟨by decide, ?_, by decide⟩
  decide

/-- Rust `Canvas::blend_pixel` only rewrites the buffer. -/
theorem Canvas.blend_pixel_fields (cv : Canvas) (x y : ℤ) (c : Color) :
    (cv.blend_pixel x y c).width = cv.width ∧
    (cv.blend_pixel x y c).height = cv.height ∧
    (cv.blend_pixel x y c).stroke_weight = cv.stroke_weight := by
  unfold Canvas.blend_pixel
  split <;> exact ⟨rfl, rfl, rfl⟩

/-- One stroke-loop iteration only rewrites the buffer. -/
theorem Canvas.strokePixel_fields (cv : Canvas) (shape : ShapeI) (color : Color)
    (px py : ℤ) :
    (cv.strokePixel shape color px py).width = cv.width ∧
    (cv.strokePixel shape color px py).height = cv.height ∧
    (cv.strokePixel shape color px py).stroke_weight = cv.stroke_weight := by
  unfold Canvas.strokePixel
  by_cases h : 0 < cv.calculate_stroke_coverage (shape.distance (px : ℚ) (py : ℚ))
  · simp only [if_pos h]
    exact Canvas.blend_pixel_fields cv px py _
  · simp only [if_neg h]
    exact ⟨trivial, trivial, trivial⟩

/-- Distinct in-bounds pixels of a canvas use distinct buffer indices. -/
theorem Canvas.index_inj_canvas {cv : Canvas} {x y x' y' : ℤ}
    (h : cv.inBounds x y) (h' : cv.inBounds x' y')
    (hne : (x, y) ≠ (x', y')) : cv.index x y ≠ cv.index x' y' :=
  @PixelBuffer.index_inj ⟨cv.width, cv.height, cv.buffer⟩ x y x' y' h h' hne

/-- Reading a canvas that differs only in its buffer. -/
theorem Canvas.getPixel_setBuffer_canvas (cv : Canvas) (l : List ℕ) (px py : ℤ) :
    Canvas.getPixel { cv with buffer := l } px py
      = if cv.inBounds px py then some (l.getD (cv.index px py) 0) else none := rfl

/-- Blending at one pixel does not change the word read at a different
pixel. -/
theorem Canvas.getPixel_blend_ne_canvas (cv : Canvas) (qx qy : ℤ) (c : Color)
    (px py : ℤ) (hne : (qx, qy) ≠ (px, py)) :
    (cv.blend_pixel qx qy c).getPixel px py = cv.getPixel px py := by
  unfold Canvas.blend_pixel
  split
  · next hq =>
    show Canvas.getPixel
        { cv with buffer := cv.buffer.set (cv.index qx qy) (blendWord (cv.buffer.getD (cv.index qx qy) 0) c) } px py = _
    rw [Canvas.getPixel_setBuffer_canvas]
    unfold Canvas.getPixel
    by_cases hp : cv.inBounds px py
    · rw [if_pos hp, if_pos hp, getD_set_ne (Canvas.index_inj_canvas hq hp hne)]
    · rw [if_neg hp, if_neg hp]
  · rfl

/-- The coverage profile of the source's stroke pass: never negative, never
above `1/2` (so never full opacity), and positive exactly strictly inside
the half-stroke-width band. -/
theorem calculate_stroke_coverage_spec (cv : Canvas)
    (hsw : 0 < cv.stroke_weight) (d : ℚ) :
    0 ≤ cv.calculate_stroke_coverage d ∧
    cv.calculate_stroke_coverage d ≤ 1 / 2 ∧
    (0 < cv.calculate_stroke_coverage d ↔ |d| < cv.stroke_weight / 2) := by
  unfold Canvas.calculate_stroke_coverage
  have habs := abs_nonneg d
  by_cases h : cv.stroke_weight / 2 < |d|
  · simp only [if_pos h]
    refine ⟨le_refl 0, by norm_num, ?_⟩
    constructor
    · intro h0; exact absurd h0 (lt_irrefl 0)
    · intro hlt; exact absurd hlt (not_lt.mpr (le_of_lt h))
  · simp only [if_neg h]
    have h' : |d| ≤ cv.stroke_weight / 2 := not_lt.mp h
    refine ⟨div_nonneg (by linarith) hsw.le, ?_, ?_⟩
    · rw [div_le_iff₀ hsw]
      linarith
    · constructor
      · intro hpos
        have hmul := mul_pos hpos hsw
        rw [div_mul_cancel₀ _ (ne_of_gt hsw)] at hmul
        linarith
      · intro hlt
        exact div_pos (by linarith) hsw

/-- One stroke iteration leaves a pixel alone if either it targets a
different pixel or its own coverage is not positive. -/
theorem Canvas.strokePixel_getPixel_preserve (acc : Canvas) (shape : ShapeI)
    (color : Color) (qx qy px py : ℤ)
    (h : (qx, qy) = (px, py) →
      ¬ 0 < acc.calculate_stroke_coverage (shape.distance (px : ℚ) (py : ℚ))) :
    (acc.strokePixel shape color qx qy).getPixel px py = acc.getPixel px py := by
  unfold Canvas.strokePixel
  by_cases hpos : 0 < acc.calculate_stroke_coverage (shape.distance (qx : ℚ) (qy : ℚ))
  · simp only [if_pos hpos]
    rcases eq_or_ne (qx, qy) (px, py) with heq | hne
    · have hx : qx = px := congrArg Prod.fst heq
      have hy : qy = py := congrArg Prod.snd heq
      exact absurd (hx ▸ hy ▸ hpos) (h heq)
    · exact Canvas.getPixel_blend_ne_canvas acc qx qy _ px py hne
  · simp only [if_neg hpos]

/-- Folding the stroke body over any pixel list preserves a pixel whose
coverage is not positive (the stroke weight, hence the coverage test, is
unchanged along the fold). -/
theorem Canvas.stroke_fold_preserve (shape : ShapeI) (color : Color)
    (px py : ℤ) :
    ∀ (l : List (ℤ × ℤ)) (acc : Canvas),
      ¬ 0 < acc.calculate_stroke_coverage (shape.distance (px : ℚ) (py : ℚ)) →
      Canvas.getPixel
        (l.foldl (fun a pq => Canvas.strokePixel a shape color pq.1 pq.2) acc) px py
        = Canvas.getPixel acc px py := by
  intro l
  induction l with
  | nil => intro acc h; rfl
  | cons q t ih =>
    intro acc h
    rw [List.foldl_cons]
    have hsw : (acc.strokePixel shape color q.1 q.2).stroke_weight
        = acc.stroke_weight := (Canvas.strokePixel_fields acc shape color q.1 q.2).2.2
    have hcov : (acc.strokePixel shape color q.1 q.2).calculate_stroke_coverage
        (shape.distance (px : ℚ) (py : ℚ))
        = acc.calculate_stroke_coverage (shape.distance (px : ℚ) (py : ℚ)) := by
      unfold Canvas.calculate_stroke_coverage
      rw [hsw]
    rw [ih _ (by rw [hcov]; exact h)]
    exact Canvas.strokePixel_getPixel_preserve acc shape color q.1 q.2 px py (fun _ => h)

/-- C3 amended: for a positive stroke weight, the stroke pass scans the
bounding box expanded by `stroke_weight as i32` on each side and at each
pixel blends the stroke color with its alpha byte scaled (byte-truncated) by
coverage `(stroke_weight/2 − |distance|)/stroke_weight` when that is
positive.  Consequently the coverage always lies in `[0, 1/2]` (there is no
full-opacity `set_pixel` band) and every pixel whose `|shape.distance|` is
at least `stroke_weight/2` is left untouched (there is no soft fringe
between `stroke_weight/2` and `stroke_weight/2 + 1`). -/
theorem C3_stroke_pass (cv : Canvas) (hsw : 0 < cv.stroke_weight) :
    (∀ d : ℚ, 0 ≤ cv.calculate_stroke_coverage d ∧
        cv.calculate_stroke_coverage d ≤ 1 / 2 ∧
        (0 < cv.calculate_stroke_coverage d ↔ |d| < cv.stroke_weight / 2)) ∧
    (∀ (shape : ShapeI) (color : Color) (px py : ℤ),
        cv.stroke_weight / 2 ≤ |shape.distance (px : ℚ) (py : ℚ)| →
        (cv.stroke_shape_aa shape color).getPixel px py = cv.getPixel px py) := by
  refine ⟨fun d => calculate_stroke_coverage_spec cv hsw d, ?_⟩
  intro shape color px py hd
  unfold Canvas.stroke_shape_aa
  rcases hbb : shape.bounding_box with ⟨x, y, w, h⟩
  show Canvas.getPixel (List.foldl _ cv _) px py = _
  apply Canvas.stroke_fold_preserve
  rw [(calculate_stroke_coverage_spec cv hsw _).2.2]
  exact not_lt.mpr hd

/-- Witness for C3's amended statement at the concrete canvas `canvasC3`
(stroke weight 1): coverage at distance 0 is `1/2`, and the pixel `(0,0)`
(at distance `2√2 ≥ 1/2` from `Rectangle(2,2,4,4)`) is untouched by the
stroke pass. -/
theorem C3_stroke_pass_witness :
    (0 ≤ Canvas.calculate_stroke_coverage canvasC3 0 ∧
     Canvas.calculate_stroke_coverage canvasC3 0 ≤ 1 / 2 ∧
     (0 < Canvas.calculate_stroke_coverage canvasC3 0 ↔
        |(0 : ℚ)| < canvasC3.stroke_weight / 2)) ∧
    (canvasC3.stroke_weight / 2
        ≤ |(Rectangle.shape ⟨⟨2, 2⟩, 4, 4⟩).distance ((0 : ℤ) : ℚ) ((0 : ℤ) : ℚ)| →
      (canvasC3.stroke_shape_aa (Rectangle.shape ⟨⟨2, 2⟩, 4, 4⟩)
          (Color.new 255 255 255 255)).getPixel 0 0 = canvasC3.getPixel 0 0) :=
  ⟨(C3_stroke_pass canvasC3 (by decide)).1 0,
   (C3_stroke_pass canvasC3 (by decide)).2 (Rectangle.shape ⟨⟨2, 2⟩, 4, 4⟩)
     (Color.new 255 255 255 255) 0 0⟩

/-! ## Line segment (`src/geom/line.rs`) and Polygon (`src/shape.rs`) -/

/-- C6: totality of the Shape operations on malformed polygons.  The claim
holds for `bounding_box` (degenerate `(0,0)-(0,0)` on the empty polygon) and
for `distance` (`f32::INFINITY`, modelled `none`, for fewer than 2 vertices,
without failing) — but *not* for `contains` on the empty polygon:
`vertices.len() - 1` underflows `usize`, a panic under debug assertions
(modelled `none`; a release build wraps and returns `false`).  On any
nonempty polygon `contains` does return (final conjunct). -/
theorem C6_polygon_malformed :
    Polygon.contains ⟨[]⟩ ⟨0, 0⟩ = none ∧
    Polygon.bounding_box ⟨[]⟩ = (⟨0, 0⟩, ⟨0, 0⟩) ∧
    Polygon.distance ⟨[]⟩ ⟨0, 0⟩ = none ∧
    Polygon.distance ⟨[⟨1, 1⟩]⟩ ⟨0, 0⟩ = none ∧
    Polygon.contains ⟨[⟨0, 0⟩, ⟨2, 0⟩, ⟨0, 2⟩]⟩ ⟨5, 5⟩ = some false ∧
    Polygon.contains ⟨[⟨0, 0⟩, ⟨2, 0⟩, ⟨0, 2⟩]⟩ ⟨1/2, 1/2⟩ = some true :=
  ⟨rfl, rfl, rfl, rfl, by decide, by decide⟩

/-! ## Wu's anti-aliased line (`PixelBuffer::draw_line_aa`,
src/pixelbuffer.rs:101-163) -/

theorem plotSeq_append (c : Color) :
    ∀ (l1 l2 : List (ℤ × ℤ × ℚ)) (pb : PixelBuffer),
      plotSeq c (l1 ++ l2) pb = plotSeq c l2 (plotSeq c l1 pb) := by
  intro l1
  induction l1 with
  | nil => intro l2 pb; rfl
  | cons w t ih => intro l2 pb; rw [List.cons_append]; exact ih l2 _

/-- A zero-gradient non-steep Wu loop at intercept `0` plots rows 0 and 1
with coverages `1` and `0` at each visited column. -/
theorem wuLoop_horizontal (c : Color) :
    ∀ (xs : List ℤ) (pb : PixelBuffer),
      wuLoop false c 0 xs 0 pb
        = plotSeq c (xs.flatMap fun x => [(x, 0, (1 : ℚ)), (x, 1, 0)]) pb := by
  intro xs
  induction xs with
  | nil => intro pb; rfl
  | cons x t ih =>
    intro pb
    rw [List.flatMap_cons, plotSeq_append]
    have h0 : fractQ 0 = 0 := by norm_num [fractQ, truncI]
    have hfl : (⌊(0 : ℚ)⌋ : ℤ) = 0 := by norm_num
    simp only [wuLoop, plotSeq, h0, hfl, Bool.false_eq_true, if_false]
    norm_num
    exact ih _

set_option maxRecDepth 8000 in
/-- Theorem: `draw_line_aa (0,0)-(10,0)` issues exactly the `hlineWrites` plot
sequence, for every buffer and color: the line is not steep, the endpoints
round to columns 0 and 10 with gap weight `1/2`, the gradient is `0`, and
the interior columns `1..9` get coverages `1` (row 0) and `0` (row 1). -/
theorem draw_line_aa_horizontal_eq (pb : PixelBuffer) (c : Color) :
    pb.draw_line_aa ⟨0, 0⟩ ⟨10, 0⟩ c = plotSeq c hlineWrites pb := by
  have h1 : pb.draw_line_aa ⟨0, 0⟩ ⟨10, 0⟩ c
      = wuLoop false c 0 (intRangeExcl 1 10) 0
          ((((pb.plot 0 0 c (1/2)).plot 0 1 c 0).plot 10 0 c (1/2)).plot 10 1 c 0) := rfl
  have h2 : intRangeExcl 1 10 = [1, 2, 3, 4, 5, 6, 7, 8, 9] := rfl
  have h3 : ([1, 2, 3, 4, 5, 6, 7, 8, 9] : List ℤ).flatMap
      (fun x => [(x, 0, (1 : ℚ)), (x, 1, 0)]) = hlineLoopWrites 9 := rfl
  rw [h1, h2, wuLoop_horizontal, h3]
  rw [show hlineWrites = [(0, 0, 1/2), (0, 1, 0), (10, 0, 1/2), (10, 1, 0)]
      ++ hlineLoopWrites 9 from rfl, plotSeq_append]
  rfl

/-- Reading a pixel buffer that differs only in its backing store. -/
theorem PixelBuffer.getPixel_setBuffer (pb : PixelBuffer) (l : List ℕ) (px py : ℤ) :
    PixelBuffer.getPixel { pb with buffer := l } px py
      = if pb.inBounds px py then some (l.getD (pb.index px py) 0) else none := rfl

/-- Blending at one pixel does not change the word read at a different
pixel. -/
theorem PixelBuffer.getPixel_blend_ne (pb : PixelBuffer) (qx qy : ℤ) (c : Color)
    (px py : ℤ) (hne : (qx, qy) ≠ (px, py)) :
    (pb.blend_pixel qx qy c).getPixel px py = pb.getPixel px py := by
  unfold PixelBuffer.blend_pixel
  split
  · next hq =>
    show PixelBuffer.getPixel
        { pb with buffer := pb.buffer.set (pb.index qx qy) (blendWord (pb.buffer.getD (pb.index qx qy) 0) c) } px py = _
    rw [PixelBuffer.getPixel_setBuffer]
    unfold PixelBuffer.getPixel
    by_cases hp : pb.inBounds px py
    · rw [if_pos hp, if_pos hp, getD_set_ne (PixelBuffer.index_inj hq hp hne)]
    · rw [if_neg hp, if_neg hp]
  · rfl

theorem PixelBuffer.getPixel_plot_ne (pb : PixelBuffer) (qx qy : ℤ) (c : Color)
    (α : ℚ) (px py : ℤ) (hne : (qx, qy) ≠ (px, py)) :
    (pb.plot qx qy c α).getPixel px py = pb.getPixel px py :=
  PixelBuffer.getPixel_blend_ne pb qx qy _ px py hne

/-- Rust `plot` only rewrites the backing store, preserving its length. -/
theorem PixelBuffer.plot_dims (pb : PixelBuffer) (x y : ℤ) (c : Color) (α : ℚ) :
    (pb.plot x y c α).width = pb.width ∧ (pb.plot x y c α).height = pb.height ∧
    (pb.plot x y c α).buffer.length = pb.buffer.length := by
  unfold PixelBuffer.plot PixelBuffer.blend_pixel
  split
  · exact ⟨rfl, rfl, List.length_set ..⟩
  · exact ⟨rfl, rfl, rfl⟩

theorem plotSeq_dims (c : Color) :
    ∀ (l : List (ℤ × ℤ × ℚ)) (pb : PixelBuffer),
      (plotSeq c l pb).width = pb.width ∧ (plotSeq c l pb).height = pb.height ∧
      (plotSeq c l pb).buffer.length = pb.buffer.length := by
  intro l
  induction l with
  | nil => intro pb; exact ⟨rfl, rfl, rfl⟩
  | cons w t ih =>
    intro pb
    have h1 := ih (pb.plot w.1 w.2.1 c w.2.2)
    have h2 := PixelBuffer.plot_dims pb w.1 w.2.1 c w.2.2
    exact ⟨h1.1.trans h2.1, h1.2.1.trans h2.2.1, h1.2.2.trans h2.2.2⟩

/-- The word blended over any background by a fully opaque color. -/
theorem blendWord_opaque (bg : ℕ) (c : Color) (hc : c.a = 255) :
    blendWord bg c = (Color.new c.r c.g c.b 255).val := by
  have hα : (c.a : ℚ) / 255 = 1 := by rw [hc]; norm_num
  have key : ∀ u v : ℕ, u < 256 →
      toU8 ((1 - (c.a : ℚ) / 255) * (v : ℚ) + (c.a : ℚ) / 255 * (u : ℚ)) = u := by
    intro u v hu
    rw [hα]
    norm_num
    exact toU8_natCast (by omega)
  show (Color.new
      (toU8 ((1 - (c.a : ℚ) / 255) * (Color.r ⟨bg⟩ : ℚ) + (c.a : ℚ) / 255 * (c.r : ℚ)))
      (toU8 ((1 - (c.a : ℚ) / 255) * (Color.g ⟨bg⟩ : ℚ) + (c.a : ℚ) / 255 * (c.g : ℚ)))
      (toU8 ((1 - (c.a : ℚ) / 255) * (Color.b ⟨bg⟩ : ℚ) + (c.a : ℚ) / 255 * (c.b : ℚ)))
      255).val = _
  rw [key c.r _ (Color.r_lt c), key c.g _ (Color.g_lt c), key c.b _ (Color.b_lt c)]

/-- Plotting with coverage `1` an opaque color stores exactly that color
(with the forced 255 alpha byte). -/
theorem PixelBuffer.plot_full_opaque (pb : PixelBuffer) (x y : ℤ) (c : Color)
    (hc : c.a = 255) (hin : pb.inBounds x y)
    (hidx : pb.index x y < pb.buffer.length) :
    (pb.plot x y c 1).getPixel x y = some (Color.new c.r c.g c.b 255).val := by
  have haa : c.withAlpha (toU8 ((c.a : ℚ) * 1)) = c.withAlpha 255 := by
    rw [hc, mul_one, toU8_natCast (le_refl 255)]
  have haar : (c.withAlpha 255).a = 255 :=
    Color.a_new (Color.r_lt c) (Color.g_lt c) (Color.b_lt c) (by norm_num)
  unfold PixelBuffer.plot
  rw [haa]
  unfold PixelBuffer.blend_pixel
  rw [if_pos hin]
  show PixelBuffer.getPixel { pb with buffer := _ } x y = _
  rw [PixelBuffer.getPixel_setBuffer, if_pos hin, getD_set_self hidx,
    blendWord_opaque _ _ haar,
    show c.withAlpha 255 = Color.new c.r c.g c.b 255 from rfl]
  rw [Color.r_new (Color.r_lt c) (Color.g_lt c) (Color.b_lt c) (by norm_num),
    Color.g_new (Color.r_lt c) (Color.g_lt c) (Color.b_lt c) (by norm_num),
    Color.b_new (Color.r_lt c) (Color.g_lt c) (Color.b_lt c) (by norm_num)]

/-- A zero-coverage plot never changes the visible RGB bytes of any pixel
(the alpha byte may change; compare claim C10). -/
theorem plot_zero_rgb (pb : PixelBuffer) (x y : ℤ) (c : Color) (px py : ℤ) :
    rgbAt (pb.plot x y c 0) px py = rgbAt pb px py := by
  rcases eq_or_ne (x, y) (px, py) with heq | hne
  · have hx : x = px := congrArg Prod.fst heq
    have hy : y = py := congrArg Prod.snd heq
    subst hx; subst hy
    have haa0 : (c.withAlpha (toU8 ((c.a : ℚ) * 0))).a = 0 := by
      rw [show (c.a : ℚ) * 0 = 0 from mul_zero _, toU8_zero]
      exact Color.a_new (Color.r_lt c) (Color.g_lt c) (Color.b_lt c) (by norm_num)
    unfold rgbAt PixelBuffer.plot PixelBuffer.blend_pixel
    split
    · next hin =>
      set aa := c.withAlpha (toU8 ((c.a : ℚ) * 0)) with haadef
      set idx := pb.index x y with hidxdef
      set bg := pb.buffer.getD idx 0 with hbgdef
      show (PixelBuffer.getPixel { pb with buffer := pb.buffer.set idx (blendWord bg aa) } x y).map _
          = (pb.getPixel x y).map _
      rw [PixelBuffer.getPixel_setBuffer]
      rw [if_pos hin]
      unfold PixelBuffer.getPixel
      rw [if_pos hin]
      by_cases hlt : idx < pb.buffer.length
      · rw [getD_set_self hlt]
        have hch := blendWord_channels bg aa
        have hzero : (1 - (aa.a : ℚ) / 255) = 1 ∧ ((aa.a : ℚ) / 255) = 0 := by
          rw [haa0]; norm_num
        simp only [Option.map_some']
        congr 1
        refine Prod.ext ?_ (Prod.ext ?_ ?_)
        · show Color.r ⟨blendWord bg aa⟩ = Color.r ⟨bg⟩
          rw [hch.1, hzero.1, hzero.2]
          simp only [one_mul, zero_mul, add_zero]
          exact toU8_natCast (Nat.lt_succ_iff.mp (Color.r_lt ⟨bg⟩))
        · show Color.g ⟨blendWord bg aa⟩ = Color.g ⟨bg⟩
          rw [hch.2.1, hzero.1, hzero.2]
          simp only [one_mul, zero_mul, add_zero]
          exact toU8_natCast (Nat.lt_succ_iff.mp (Color.g_lt ⟨bg⟩))
        · show Color.b ⟨blendWord bg aa⟩ = Color.b ⟨bg⟩
          rw [hch.2.2.1, hzero.1, hzero.2]
          simp only [one_mul, zero_mul, add_zero]
          exact toU8_natCast (Nat.lt_succ_iff.mp (Color.b_lt ⟨bg⟩))
      · rw [List.set_eq_of_length_le (by omega)]
    · rfl
  · unfold rgbAt
    rw [PixelBuffer.getPixel_plot_ne pb x y c 0 px py hne]

/-- A plot sequence all of whose writes have zero coverage or sit on row 0
never changes the RGB bytes of pixels off row 0. -/
theorem plotSeq_rgb_preserve (c : Color) :
    ∀ (l : List (ℤ × ℤ × ℚ)), (∀ w ∈ l, w.2.2 = (0 : ℚ) ∨ w.2.1 = 0) →
      ∀ (pb : PixelBuffer) (px py : ℤ), py ≠ 0 →
        rgbAt (plotSeq c l pb) px py = rgbAt pb px py := by
  intro l
  induction l with
  | nil => intro _ pb px py _; rfl
  | cons w t ih =>
    intro h pb px py hpy
    show rgbAt (plotSeq c t (pb.plot w.1 w.2.1 c w.2.2)) px py = _
    rw [ih (fun u hu => h u (List.mem_cons_of_mem w hu)) _ px py hpy]
    rcases h w (List.mem_cons_self w t) with hcov | hrow
    · rw [hcov]
      exact plot_zero_rgb pb w.1 w.2.1 c px py
    · unfold rgbAt
      rw [PixelBuffer.getPixel_plot_ne pb w.1 w.2.1 c w.2.2 px py]
      rw [hrow]
      intro hcontra
      exact hpy (congrArg Prod.snd hcontra).symm

/-- The loop writes of columns `1..k` (k ≤ 9) put the opaque color at every
visited row-0 pixel of a 12×2 buffer. -/
theorem plotSeq_hlineLoop (c : Color) (hc : c.a = 255) :
    ∀ k : ℕ, k ≤ 9 → ∀ pb : PixelBuffer, pb.width = 12 → pb.height = 2 →
      pb.buffer.length = 24 →
      ∀ px : ℤ, 1 ≤ px → px ≤ (k : ℤ) →
        (plotSeq c (hlineLoopWrites k) pb).getPixel px 0
          = some (Color.new c.r c.g c.b 255).val := by
  intro k
  induction k with
  | zero => intro _ pb _ _ _ px h1 h2; omega
  | succ k ih =>
    intro hk pb hw hh hl px h1 h2
    have hsplit : hlineLoopWrites (k + 1)
        = hlineLoopWrites k ++ [((k : ℤ) + 1, 0, (1 : ℚ)), ((k : ℤ) + 1, 1, 0)] := by
      unfold hlineLoopWrites
      rw [List.range_succ, List.flatMap_append]
      simp
    rw [hsplit, plotSeq_append]
    have hd := plotSeq_dims c (hlineLoopWrites k) pb
    have hsw : (plotSeq c (hlineLoopWrites k) pb).width = 12 := hd.1.trans hw
    have hsh : (plotSeq c (hlineLoopWrites k) pb).height = 2 := hd.2.1.trans hh
    have hsl : (plotSeq c (hlineLoopWrites k) pb).buffer.length = 24 := hd.2.2.trans hl
    set s := plotSeq c (hlineLoopWrites k) pb with hsdef
    show ((s.plot ((k : ℤ) + 1) 0 c 1).plot ((k : ℤ) + 1) 1 c 0).getPixel px 0 = _
    by_cases hle : px ≤ (k : ℤ)
    · rw [PixelBuffer.getPixel_plot_ne _ _ _ _ _ _ _
          (by intro hco; have h2' := congrArg Prod.snd hco; simp at h2'),
        PixelBuffer.getPixel_plot_ne _ _ _ _ _ _ _
          (by intro hco; have h2' := congrArg Prod.fst hco; simp at h2'; omega)]
      exact ih (by omega) pb hw hh hl px h1 hle
    · rw [PixelBuffer.getPixel_plot_ne _ _ _ _ _ _ _
          (by intro hco; have h2' := congrArg Prod.snd hco; simp at h2')]
      have hpx : px = (k : ℤ) + 1 := by push_cast at h2; omega
      subst hpx
      apply PixelBuffer.plot_full_opaque s _ _ c hc
      · refine ⟨by omega, ?_, by omega, ?_⟩
        · rw [hsw]; push_cast at hk; omega
        · rw [hsh]; omega
      · have hidx : s.index ((k : ℤ) + 1) 0 = (k + 1 : ℕ) := by
          unfold PixelBuffer.index
          simp
        rw [hidx, hsl]
        omega

set_option maxRecDepth 2000 in
/-- C7: `draw_line_aa((0,0),(10,0),c)` on a fresh 12×2 buffer lights only
row `y = 0` — every pixel off row 0 keeps its RGB bytes — and the interior
columns `x = 1..9` receive full coverage: for an opaque color they store
exactly that color's word (the degenerate horizontal case of Wu's
algorithm). -/
theorem C7_draw_line_aa_horizontal (r g b a : ℕ) (hr : r < 256) (hg : g < 256)
    (hb : b < 256) (ha : a < 256) :
    (∀ px py : ℤ, py ≠ 0 →
        rgbAt ((PixelBuffer.new 12 2).draw_line_aa ⟨0, 0⟩ ⟨10, 0⟩ (Color.new r g b a)) px py
          = rgbAt (PixelBuffer.new 12 2) px py) ∧
    (a = 255 → ∀ px : ℤ, 1 ≤ px → px ≤ 9 →
        ((PixelBuffer.new 12 2).draw_line_aa ⟨0, 0⟩ ⟨10, 0⟩ (Color.new r g b a)).getPixel px 0
          = some (Color.new r g b 255).val) := by
  constructor
  · intro px py hpy
    rw [draw_line_aa_horizontal_eq]
    exact plotSeq_rgb_preserve _ hlineWrites (by decide) _ px py hpy
  · intro h255 px h1 h9
    subst h255
    rw [draw_line_aa_horizontal_eq]
    have hc : (Color.new r g b 255).a = 255 := Color.a_new hr hg hb (by norm_num)
    rw [show hlineWrites = [(0, 0, 1/2), (0, 1, 0), (10, 0, 1/2), (10, 1, 0)]
        ++ hlineLoopWrites 9 from rfl, plotSeq_append]
    have hd := plotSeq_dims (Color.new r g b 255)
      [(0, 0, 1/2), (0, 1, 0), (10, 0, 1/2), (10, 1, 0)] (PixelBuffer.new 12 2)
    have h := plotSeq_hlineLoop (Color.new r g b 255) hc 9 (le_refl 9)
      (plotSeq (Color.new r g b 255) [(0, 0, 1/2), (0, 1, 0), (10, 0, 1/2), (10, 1, 0)]
        (PixelBuffer.new 12 2))
      (hd.1.trans rfl) (hd.2.1.trans rfl) (hd.2.2.trans (by decide))
      px h1 (by exact_mod_cast h9)
    rw [h, Color.r_new hr hg hb (by norm_num), Color.g_new hr hg hb (by norm_num),
      Color.b_new hr hg hb (by norm_num)]

/-- Witness for C7 at the concrete opaque color `(200, 100, 50, 255)`. -/
theorem C7_draw_line_aa_horizontal_witness :
    (∀ px py : ℤ, py ≠ 0 →
        rgbAt ((PixelBuffer.new 12 2).draw_line_aa ⟨0, 0⟩ ⟨10, 0⟩ (Color.new 200 100 50 255)) px py
          = rgbAt (PixelBuffer.new 12 2) px py) ∧
    (255 = 255 → ∀ px : ℤ, 1 ≤ px → px ≤ 9 →
        ((PixelBuffer.new 12 2).draw_line_aa ⟨0, 0⟩ ⟨10, 0⟩ (Color.new 200 100 50 255)).getPixel px 0
          = some (Color.new 200 100 50 255).val) :=
  C7_draw_line_aa_horizontal 200 100 50 255 (by decide) (by decide) (by decide) (by decide)

end SimpleSketch
